import Mathlib

/-!
A verification development for the Medoo Node.js port (`medoo.js`): a
declarative-to-SQL query compiler.  The JavaScript source is shallowly
embedded here: JS values flowing through the compiler are modelled by
`JVal`/`CondVal`, JS objects by ordered association lists, the mutable
parameter map and the `guid` counter by an explicit state record `St`,
and thrown exceptions by `Except MErr`.  Each definition mirrors one
function of `medoo.js` (`tableQuote`, `columnQuote`, `buildRaw`,
`dataImplode`, `whereClause`, `columnPush`, `buildJoin`, `columnMap`,
`dataMap`, and the argument pruning of `get`).
-/

namespace Medoo

/-- A primitive JS value as it appears in data rows, condition leaves and
parameter bindings: number (integers suffice for the modelled behavior),
string, boolean, `null` or `undefined`. -/
inductive JVal where
  | num (n : Int)
  | str (s : String)
  | bool (b : Bool)
  | jnull
  | undefined
deriving DecidableEq, Repr

/-- A `Raw` fragment (`new Raw(value, map)`): SQL text plus caller-supplied
named parameters. -/
structure RawF where
  value : String
  map : List (String × JVal)
deriving DecidableEq, Repr

/-- The suffix appended to a generated parameter key: none (plain `mapKey()`),
the BETWEEN endpoints `a`/`b`, a LIKE index `L<i>`, or an IN-list index
`<i>_i`. -/
inductive Suffix where
  | plain
  | a
  | b
  | like (i : Nat)
  | inIdx (i : Nat)
deriving DecidableEq, Repr

def Suffix.render : Suffix → String
  | .plain => ""
  | .a => "a"
  | .b => "b"
  | .like i => "L" ++ toString i
  | .inIdx i => toString i ++ "_i"

/-- A key of the outgoing parameter map: a generated key
`:medoo_<guid>_param<suffix>` (from `mapKey()`), or a caller-chosen name
merged in from a `Raw` fragment's map. -/
inductive PKey where
  | gen (guid : Nat) (suf : Suffix)
  | named (s : String)
deriving DecidableEq, Repr

def PKey.render : PKey → String
  | .gen g suf => ":medoo_" ++ toString g ++ "_param" ++ suf.render
  | .named s => s

/-- Errors thrown synchronously by the compiler: the two identifier errors,
the wildcard-under-join error, and a JS `TypeError` (reading a property of
a `null` regex-match result). -/
inductive MErr where
  | incorrectTable (s : String)
  | incorrectColumn (s : String)
  | ambiguousWildcard
  | typeError
deriving DecidableEq, Repr

/-- The character class `[a-zA-Z0-9_]` of the identifier regexes. -/
def wordChar (c : Char) : Bool := c.isAlpha || c.isDigit || c = '_'

/-- Nonempty and all word characters: the language of `^[a-zA-Z0-9_]+$`. -/
def isIdentL (cs : List Char) : Bool := !cs.isEmpty && cs.all wordChar

def isIdentS (s : String) : Bool := isIdentL s.data

/-- `tableQuote(table)` from medoo.js lines 102-107: reject unless the name
matches `^[a-zA-Z0-9_]+$`, else wrap prefix-concatenated name in double
quotes. -/
def tableQuote (pfx : String) (table : String) : Except MErr String :=
  if isIdentS table then .ok ("\"" ++ pfx ++ table ++ "\"")
  else .error (.incorrectTable table)

/-- The language of `^[a-zA-Z0-9_]+(\.[a-zA-Z0-9_]+)?$`, computed the way a
regex engine does: a maximal word run, then optionally a dot and a second
word run, then end of input. -/
def colRefTest (cs : List Char) : Bool :=
  let a := cs.takeWhile wordChar
  let r := cs.dropWhile wordChar
  !a.isEmpty &&
    match r with
    | [] => true
    | '.' :: b => !b.isEmpty && b.all wordChar
    | _ => false

/-- JS `string.replace('.', '"."')`: rewrite the first dot only. -/
def replaceFirstDot : List Char → List Char
  | [] => []
  | c :: r => if c = '.' then '"' :: '.' :: '"' :: r else c :: replaceFirstDot r

/-- `columnQuote(string)` from medoo.js lines 110-120: reject unless the
reference matches `^[a-zA-Z0-9_]+(\.[a-zA-Z0-9_]+)?$`; a dotted reference is
prefixed and has its dot expanded to `"."`, an undotted one is quoted with no
prefix. -/
def columnQuote (pfx : String) (s : String) : Except MErr String :=
  if colRefTest s.data then
    if s.data.contains '.' then
      .ok ("\"" ++ pfx ++ String.mk (replaceFirstDot s.data) ++ "\"")
    else
      .ok ("\"" ++ s ++ "\"")
  else .error (.incorrectColumn s)

/-- `typeMap(value, type)` from medoo.js lines 123-131: booleans become the
strings `'1'`/`'0'`; everything else passes through. -/
def typeMap : JVal → JVal
  | .bool b => .str (if b then "1" else "0")
  | v => v

/-- The value of one condition-tree entry: a primitive, a JS array of
primitives, a `Raw` fragment, or a nested plain object (a sub-tree, used
under `AND`/`OR` keys; under any other key `dataImplode` silently skips
it, as JS does for a plain object that is neither `null`, an array nor a
`Raw`). -/
inductive CondVal where
  | jnull
  | num (n : Int)
  | str (s : String)
  | bool (b : Bool)
  | undefined
  | list (l : List JVal)
  | raw (r : RawF)
  | sub (t : List (String × CondVal))

/-- A condition tree: the ordered entries of a JS object. -/
abbrev CondTree := List (String × CondVal)

/-- A value bound in the parameter map.  Besides primitives, JS happily
binds whole arrays (`age[>]: [..]`), plain objects and even `Raw`
instances (`REGEXP` binds the value unconditionally), so the codomain
keeps them. -/
inductive BindVal where
  | j (v : JVal)
  | arr (l : List JVal)
  | tree (t : CondTree)
  | rawv (r : RawF)

/-- The outgoing parameter map, an ordered JS object. -/
abbrev ParamMap := List (PKey × BindVal)

/-- JS object assignment `map[k] = v`: overwrite in place if the key
exists (keeping its position), else append. -/
def pmInsert (m : ParamMap) (k : PKey) (v : BindVal) : ParamMap :=
  if m.any (fun e => e.1 == k) then m.map (fun e => if e.1 == k then (k, v) else e)
  else m ++ [(k, v)]

/-- The compiler state threaded through one compilation: the parameter
map being filled and the `guid` counter behind `mapKey()`. -/
structure St where
  map : ParamMap
  guid : Nat

/-- JS `String(x)` on a primitive. -/
def JVal.toStr : JVal → String
  | .num n => toString n
  | .str s => s
  | .bool b => if b then "true" else "false"
  | .jnull => "null"
  | .undefined => "undefined"

/-- JS `String(x)` on an array element inside `Array.prototype.join`:
`null`/`undefined` render empty there. -/
def JVal.joinStr : JVal → String
  | .jnull => ""
  | .undefined => ""
  | v => v.toStr

/-- JS `String(x)` on a condition value (arrays join with `,`, objects and
`Raw` instances stringify as `[object Object]`). -/
def CondVal.toStr : CondVal → String
  | .jnull => "null"
  | .num n => toString n
  | .str s => s
  | .bool b => if b then "true" else "false"
  | .undefined => "undefined"
  | .list l => String.intercalate "," (l.map JVal.joinStr)
  | .raw _ => "[object Object]"
  | .sub _ => "[object Object]"

/-- Whether `typeof value === 'object'` holds for a condition value
(`null`, arrays, `Raw` instances and plain objects). -/
def CondVal.isObj : CondVal → Bool
  | .jnull | .list _ | .raw _ | .sub _ => true
  | _ => false

/-- JS truthiness of a primitive. -/
def JVal.truthy : JVal → Bool
  | .num n => n != 0
  | .str s => s != ""
  | .bool b => b
  | .jnull => false
  | .undefined => false

/-- The `\s` class of JS regexes (ASCII part). -/
def jsSpace (c : Char) : Bool :=
  c = ' ' || c = '\t' || c = '\n' || c = '\r' || c = Char.ofNat 11 || c = Char.ofNat 12

/-- A character `.` cannot match in a JS regex without the `s` flag. -/
def jsNewline (c : Char) : Bool := c = '\n' || c = '\r'

/-- The test `/^(AND|OR)(\s+#.*)?$/` on a condition key (medoo.js line 294),
returning the captured relationship. -/
def logicalRel (s : String) : Option String :=
  let check (rel : String) : Option String :=
    let cs := s.data
    if cs.take rel.data.length = rel.data then
      let rest := cs.drop rel.data.length
      if rest.isEmpty then some rel
      else
        let ws := rest.takeWhile jsSpace
        match rest.dropWhile jsSpace with
        | '#' :: tail => if !ws.isEmpty && tail.all (fun c => !jsNewline c) then some rel else none
        | _ => none
    else none
  match check "AND" with
  | some r => some r
  | none => check "OR"

/-- The column-token class `[a-zA-Z0-9_\.\(\)\*]` of the condition-key
regex (medoo.js line 317). -/
def colChar (c : Char) : Bool := wordChar c || c = '.' || c = '(' || c = ')' || c = '*'

/-- A condition key split into its column token and optional bracketed
operator. -/
structure KeyMatch where
  column : String
  op : Option String
deriving DecidableEq, Repr

/-- The operator alternation `\>\=?|\<\=?|\!|\<\>|\>\<|\!?~|REGEXP` followed
by the closing `\]`, with regex backtracking folded in; `cs` is positioned
just after the opening `[`.  Returns the matched operator text (the `i`
flag lets e.g. `regexp` match, preserving its case). -/
def condOpParse (cs : List Char) : Option String :=
  match cs with
  | '>' :: '=' :: ']' :: _ => some ">="
  | '>' :: ']' :: _ => some ">"
  | '>' :: '<' :: ']' :: _ => some "><"
  | '<' :: '=' :: ']' :: _ => some "<="
  | '<' :: '>' :: ']' :: _ => some "<>"
  | '<' :: ']' :: _ => some "<"
  | '!' :: '~' :: ']' :: _ => some "!~"
  | '!' :: ']' :: _ => some "!"
  | '~' :: ']' :: _ => some "~"
  | _ =>
    let pre := cs.take 6
    if pre.map Char.toUpper == "REGEXP".data && (cs.drop 6).take 1 == [']'] then
      some (String.mk pre)
    else none

/-- The leftmost match of the condition-key regex
`([a-zA-Z0-9_\.\(\)\*]+)(\[(?<operator>...)\])?` (medoo.js line 317);
`none` models a `null` match (a key with no column character), which the
source then dereferences — a `TypeError`. -/
def parseCondKey (s : String) : Option KeyMatch :=
  go s.data
where
  go : List Char → Option KeyMatch
    | [] => none
    | c :: rest =>
      if colChar c then
        let run := (c :: rest).takeWhile colChar
        match (c :: rest).dropWhile colChar with
        | '[' :: cs2 => some ⟨String.mk run, condOpParse cs2⟩
        | _ => some ⟨String.mk run, none⟩
      else go rest

/-- The class `[a-zA-Z0-9_\.]` of the column-to-column comparison regex. -/
def dotWord (c : Char) : Bool := wordChar c || c = '.'

/-- The operator alternation `\>\=?|\<\=?|\!?\=` of the column-to-column
comparison (medoo.js line 313), with the closing `\]`. -/
def colcolOpParse (cs : List Char) : Option (String × List Char) :=
  match cs with
  | '>' :: '=' :: ']' :: r => some (">=", r)
  | '>' :: ']' :: r => some (">", r)
  | '<' :: '=' :: ']' :: r => some ("<=", r)
  | '<' :: ']' :: r => some ("<", r)
  | '!' :: '=' :: ']' :: r => some ("!=", r)
  | '=' :: ']' :: r => some ("=", r)
  | _ => none

/-- The leftmost match of
`([a-zA-Z0-9_\.]+)\[(\>\=?|\<\=?|\!?\=)\]([a-zA-Z0-9_\.]+)` against a
positional entry's string value: a column-to-column comparison. -/
def parseColCol (s : String) : Option (String × String × String) :=
  go s.data
where
  go : List Char → Option (String × String × String)
    | [] => none
    | c :: rest =>
      if dotWord c then
        let run := (c :: rest).takeWhile dotWord
        match (c :: rest).dropWhile dotWord with
        | '[' :: cs2 =>
          match colcolOpParse cs2 with
          | some (op, cs3) =>
            let run2 := cs3.takeWhile dotWord
            if run2.isEmpty then go rest else some (String.mk run, op, String.mk run2)
          | none => go rest
        | _ => go rest
      else go rest

/-- `/^\d+$/.test(key)`. -/
def isIntKey (s : String) : Bool := !s.data.isEmpty && s.data.all Char.isDigit

/-- The LIKE auto-wrap test `/(\[.+\]|[\*\?\!\%#^-_]|%.+|.+%)/` (medoo.js
line 384): a `[...]` pair bridged by non-newline characters, or one of the
characters `* ? ! % # ^ _` (the class `^-_` is the two-character range). -/
def bracketWild : List Char → Bool
  | [] => false
  | '[' :: rest =>
    (match rest with
     | c :: r2 => !jsNewline c && scanClose r2
     | [] => false) || bracketWild rest
  | _ :: rest => bracketWild rest
where
  scanClose : List Char → Bool
    | [] => false
    | ']' :: _ => true
    | c :: r => !jsNewline c && scanClose r

def wildChar (c : Char) : Bool :=
  c = '*' || c = '?' || c = '!' || c = '%' || c = '#' || c = '^' || c = '_'

def hasLikeWildcard (s : String) : Bool :=
  s.data.any wildChar || bracketWild s.data

/-! ### The Raw fragment splicer (`buildRaw`, medoo.js lines 134-163)

The replacement regex
`(([`']).*?)?((FROM|TABLE|INTO|UPDATE|JOIN)\s*)?\<(ident(\.ident)?)\>(.*?\2)?`
with its callback is realised as a left-to-right scan.  When the match
starts at a quote character (group 1 participates), `p1.includes(p2)` is
true — group 1 begins with the quote itself — so the callback returns the
match unchanged; the only effect is that the scan skips past the closing
quote.  Otherwise a keyword-prefixed placeholder becomes a quoted table
name and a bare placeholder a quoted column name. -/

/-- Parse `\<(([a-zA-Z0-9_]+)(\.[a-zA-Z0-9_]+)?)\>` at the head. -/
def parsePlaceholder : List Char → Option (String × List Char)
  | '<' :: rest =>
    let w1 := rest.takeWhile wordChar
    let r1 := rest.dropWhile wordChar
    if w1.isEmpty then none
    else
      match r1 with
      | '>' :: r2 => some (String.mk w1, r2)
      | '.' :: r2 =>
        let w2 := r2.takeWhile wordChar
        let r3 := r2.dropWhile wordChar
        if w2.isEmpty then none
        else
          match r3 with
          | '>' :: r4 => some (String.mk (w1 ++ '.' :: w2), r4)
          | _ => none
      | _ => none
  | _ => none

/-- Case-insensitive keyword prefix match, returning the text as written. -/
def matchOneKw (kw : String) (cs : List Char) : Option (List Char × List Char) :=
  let k := kw.data
  let pre := cs.take k.length
  if pre.map Char.toUpper == k.map Char.toUpper then some (pre, cs.drop k.length) else none

/-- The alternation `FROM|TABLE|INTO|UPDATE|JOIN` (case-insensitive). -/
def matchKeyword (cs : List Char) : Option (List Char × List Char) :=
  match matchOneKw "FROM" cs with
  | some r => some r
  | none =>
  match matchOneKw "TABLE" cs with
  | some r => some r
  | none =>
  match matchOneKw "INTO" cs with
  | some r => some r
  | none =>
  match matchOneKw "UPDATE" cs with
  | some r => some r
  | none => matchOneKw "JOIN" cs

/-- `(keyword)\s*placeholder` at the head: the table-reference form. -/
def kwPlaceholder (cs : List Char) : Option (List Char × String × List Char) :=
  match matchKeyword cs with
  | some (kwTxt, r1) =>
    match parsePlaceholder (r1.dropWhile jsSpace) with
    | some (ident, r2) => some (kwTxt, ident, r2)
    | none => none
  | none => none

/-- Inside a quoted region the lazy `.*?` advances (never across a
newline) to the first keyword-or-bare placeholder; the suffix after its
`>` is returned, or `none` when the line holds no placeholder. -/
def findInlineMatch : List Char → Option (List Char)
  | [] => none
  | c :: rest =>
    if jsNewline c then none
    else
      match kwPlaceholder (c :: rest) with
      | some (_, _, r) => some r
      | none =>
        match parsePlaceholder (c :: rest) with
        | some (_, r) => some r
        | none => findInlineMatch rest

/-- The optional tail `(.*?\2)?`: consume lazily up to the closing quote
`q` when one occurs before a newline, else consume nothing. -/
def tailConsume (q : Char) (cs : List Char) : List Char :=
  match go cs with
  | some r => r
  | none => cs
where
  go : List Char → Option (List Char)
    | [] => none
    | c :: r => if c = q then some r else if jsNewline c then none else go r

/-- One global-replace pass of `buildRaw`'s regex (fuel is the remaining
length plus one; every step consumes at least one character). -/
def buildRawGo (pfx : String) : Nat → List Char → Except MErr (List Char)
  | 0, cs => .ok cs
  | _ + 1, [] => .ok []
  | fuel + 1, c :: rest =>
    if c = '\'' || c = Char.ofNat 96 then
      match findInlineMatch rest with
      | some afterPh =>
        let afterTail := tailConsume c afterPh
        let consumed := (c :: rest).take ((c :: rest).length - afterTail.length)
        do
          let out ← buildRawGo pfx fuel afterTail
          .ok (consumed ++ out)
      | none => do
        let out ← buildRawGo pfx fuel rest
        .ok (c :: out)
    else
      match kwPlaceholder (c :: rest) with
      | some (kwTxt, ident, r2) => do
        let tq ← tableQuote pfx ident
        let out ← buildRawGo pfx fuel r2
        .ok (kwTxt ++ ' ' :: tq.data ++ out)
      | none =>
        match parsePlaceholder (c :: rest) with
        | some (ident, r2) => do
          let cq ← columnQuote pfx ident
          let out ← buildRawGo pfx fuel r2
          .ok (cq.data ++ out)
        | none => do
          let out ← buildRawGo pfx fuel rest
          .ok (c :: out)

/-- `Object.assign(map, raw.map)`: merge the fragment's own parameters. -/
def mergeRawMap (m : ParamMap) (rm : List (String × JVal)) : ParamMap :=
  rm.foldl (fun acc e => pmInsert acc (.named e.1) (.j e.2)) m

/-- `buildRaw(raw, map)` from medoo.js lines 134-163: splice the fragment's
text (expanding `<table>` / `<table.column>` placeholders) and merge its
parameter map into the outer one. -/
def buildRaw (pfx : String) (r : RawF) (m : ParamMap) : Except MErr (String × ParamMap) := do
  let q ← buildRawGo pfx (r.value.data.length + 1) r.value.data
  .ok (String.mk q, mergeRawMap m r.map)

/-! ### The condition compiler (`dataImplode`, medoo.js lines 287-436) -/

/-- Lift a primitive row value to a condition value (used when
`dataImplode` iterates `Object.entries` of an array). -/
def jvalToCondVal : JVal → CondVal
  | .num n => .num n
  | .str s => .str s
  | .bool b => .bool b
  | .jnull => .jnull
  | .undefined => .undefined

/-- `Object.entries` of a JS array: index keys in order. -/
def entriesOfList (l : List JVal) : CondTree :=
  l.enum.map (fun e => (toString e.1, jvalToCondVal e.2))

/-- `Object.entries` of a `Raw` instance: its `value` and `map` fields in
construction order (reached when a `Raw` sits under an `AND`/`OR` key). -/
def rawAsTree (r : RawF) : CondTree :=
  [("value", .str r.value), ("map", .sub (r.map.map (fun e => (e.1, jvalToCondVal e.2))))]

/-- `map[mapKey] = v` on the threaded state. -/
def bindSt (st : St) (k : PKey) (v : BindVal) : St := ⟨pmInsert st.map k v, st.guid⟩

/-- A condition value as the parameter map stores it when JS binds it
without coercion (`map[mapKey] = value`). -/
def toBindVal : CondVal → BindVal
  | .num n => .j (.num n)
  | .str s => .j (.str s)
  | .bool b => .j (.bool b)
  | .jnull => .j .jnull
  | .undefined => .j .undefined
  | .list l => .arr l
  | .sub t => .tree t
  | .raw r => .rawv r

/-- `map[mapKey] = this.typeMap(value, type)`: same, but booleans become
`'1'`/`'0'`. -/
def typeMapBind : CondVal → BindVal
  | .bool b => .j (typeMap (.bool b))
  | v => toBindVal v

/-- The function-call-column test of medoo.js lines 319-327: a column
token containing both parentheses is a SQL function call and stays
unquoted; anything else goes through `columnQuote`. -/
def resolveColumn (pfx : String) (km : KeyMatch) : Except MErr String :=
  if km.column.data.contains '(' && km.column.data.contains ')' then .ok km.column
  else columnQuote pfx km.column

/-- One non-logical entry of `dataImplode`'s loop (medoo.js lines 310-431):
allocate `mapKey`, try the column-to-column comparison, then dispatch on
the parsed operator and the value's type.  Returns the fragment pushed
(`none` when the branch pushes nothing) and the updated state. -/
def condEntryPlain (pfx : String) (key : String) (v : CondVal) (st : St) :
    Except MErr (Option String × St) :=
  let mapKey := PKey.gen st.guid .plain
  let st1 : St := ⟨st.map, st.guid + 1⟩
  if isIntKey key && (parseColCol v.toStr).isSome then
    -- `/.../.test(value)` coerces; the subsequent `value.match(...)` is a
    -- string method, so a non-string value that stringifies to a match
    -- crashes with a TypeError.
    match v, parseColCol v.toStr with
    | .str _, some (c1, op, c2) => do
      let q1 ← columnQuote pfx c1
      let q2 ← columnQuote pfx c2
      .ok (some (q1 ++ " " ++ op ++ " " ++ q2), st1)
    | _, _ => .error .typeError
  else
    match parseCondKey key with
    | none => .error .typeError
    | some km => do
      let column ← resolveColumn pfx km
      match km.op with
      | some op =>
        if op = ">" ∨ op = ">=" ∨ op = "<" ∨ op = "<=" then
          match v with
          | .num n =>
            .ok (some (column ++ " " ++ op ++ " " ++ mapKey.render),
                 bindSt st1 mapKey (.j (.num n)))
          | .raw r => do
            let (spliced, m2) ← buildRaw pfx r st1.map
            .ok (some (column ++ " " ++ op ++ " " ++ spliced), ⟨m2, st1.guid⟩)
          | _ =>
            .ok (some (column ++ " " ++ op ++ " " ++ mapKey.render),
                 bindSt st1 mapKey (toBindVal v))
        else if op = "!" then
          match v with
          | .jnull => .ok (some (column ++ " IS NOT NULL"), st1)
          | .list l =>
            let keys := (List.range l.length).map (fun i => PKey.gen st.guid (.inIdx i))
            let m2 := l.enum.foldl
              (fun m e => pmInsert m (PKey.gen st.guid (.inIdx e.1)) (.j e.2)) st1.map
            .ok (some (column ++ " NOT IN (" ++
                   String.intercalate ", " (keys.map PKey.render) ++ ")"), ⟨m2, st1.guid⟩)
          | .raw r => do
            let (spliced, m2) ← buildRaw pfx r st1.map
            .ok (some (column ++ " != " ++ spliced), ⟨m2, st1.guid⟩)
          | .sub _ => .ok (none, st1)
          | _ =>
            .ok (some (column ++ " != " ++ mapKey.render), bindSt st1 mapKey (typeMapBind v))
        else if op = "~" ∨ op = "!~" then
          let items : List CondVal := match v with
            | .list l => l.map jvalToCondVal
            | w => [w]
          let wrap (it : CondVal) : String :=
            let s := it.toStr
            if hasLikeWildcard s then s else "%" ++ s ++ "%"
          let clause (i : Nat) : String :=
            column ++ (if op = "!~" then " NOT" else "") ++ " LIKE " ++
              (PKey.gen st.guid (.like i)).render
          let m2 := items.enum.foldl
            (fun m e => pmInsert m (PKey.gen st.guid (.like e.1)) (.j (.str (wrap e.2)))) st1.map
          .ok (some ("(" ++
                 String.intercalate " OR " ((List.range items.length).map clause) ++ ")"),
               ⟨m2, st1.guid⟩)
        else if op = "<>" ∨ op = "><" then
          match v with
          | .list l =>
            let colStr := column ++ (if op = "><" then " NOT" else "")
            let ka := PKey.gen st.guid .a
            let kb := PKey.gen st.guid .b
            let va := (l[0]?).getD .undefined
            let vb := (l[1]?).getD .undefined
            .ok (some ("(" ++ colStr ++ " BETWEEN " ++ ka.render ++ " AND " ++ kb.render ++ ")"),
                 ⟨pmInsert (pmInsert st1.map ka (.j va)) kb (.j vb), st1.guid⟩)
          | _ => .ok (none, st1)
        else if op = "REGEXP" then
          .ok (some (column ++ " REGEXP " ++ mapKey.render), bindSt st1 mapKey (toBindVal v))
        else
          -- e.g. `[regexp]`: the `i`-flag regex matched but the
          -- case-sensitive `===` chain does not; nothing is pushed.
          .ok (none, st1)
      | none =>
        match v with
        | .jnull => .ok (some (column ++ " IS NULL"), st1)
        | .list l =>
          let keys := (List.range l.length).map (fun i => PKey.gen st.guid (.inIdx i))
          let m2 := l.enum.foldl
            (fun m e => pmInsert m (PKey.gen st.guid (.inIdx e.1)) (.j e.2)) st1.map
          .ok (some (column ++ " IN (" ++
                 String.intercalate ", " (keys.map PKey.render) ++ ")"), ⟨m2, st1.guid⟩)
        | .raw r => do
          let (spliced, m2) ← buildRaw pfx r st1.map
          .ok (some (column ++ " = " ++ spliced), ⟨m2, st1.guid⟩)
        | .sub _ => .ok (none, st1)
        | _ =>
          .ok (some (column ++ " = " ++ mapKey.render), bindSt st1 mapKey (typeMapBind v))

/-- The entries of the synthetic trees reached from a logical key over an
array or a `Raw` (`entriesOfList`/`rawAsTree`) carry only numeric or field
keys — never `AND`/`OR` — so their compilation is the plain-entry loop. -/
def implodeScalars (pfx : String) : CondTree → St → Except MErr (List String × St)
  | [], st => .ok ([], st)
  | (key, v) :: rest, st =>
    match condEntryPlain pfx key v st with
    | .error e => .error e
    | .ok (frag, st1) =>
      match implodeScalars pfx rest st1 with
      | .error e => .error e
      | .ok (frags, st2) => .ok (frag.toList ++ frags, st2)

mutual

/-- The entry loop of `dataImplode`: logical `AND`/`OR` keys with an
object value recurse with the relationship as the new joiner and
parenthesize; every other entry goes through `condEntryPlain`.  Returns
the stack of fragments. -/
def condGoT (pfx : String) : CondTree → St → Except MErr (List String × St)
  | [], st => .ok ([], st)
  | (key, v) :: rest, st =>
    match logicalRel key, v.isObj with
    | some rel, true =>
      (match condGoLogical pfx rel v st with
       | .error e => .error e
       | .ok (frag, st1) =>
         match condGoT pfx rest st1 with
         | .error e => .error e
         | .ok (frags, st2) => .ok (frag :: frags, st2))
    | _, _ =>
      (match condEntryPlain pfx key v st with
       | .error e => .error e
       | .ok (frag, st1) =>
         match condGoT pfx rest st1 with
         | .error e => .error e
         | .ok (frags, st2) => .ok (frag.toList ++ frags, st2))

/-- An `AND`/`OR` entry's value: a nested tree compiles recursively; an
array or a `Raw` instance is iterated via its `Object.entries` (whose keys
are never logical); `null` crashes `Object.entries` with a TypeError. -/
def condGoLogical (pfx : String) (rel : String) : CondVal → St → Except MErr (String × St)
  | .sub t, st =>
    (match condGoT pfx t st with
     | .error e => .error e
     | .ok (frags, st1) =>
       .ok ("(" ++ String.intercalate (" " ++ rel ++ " ") frags ++ ")", st1))
  | .list l, st =>
    (match implodeScalars pfx (entriesOfList l) st with
     | .error e => .error e
     | .ok (frags, st1) =>
       .ok ("(" ++ String.intercalate (" " ++ rel ++ " ") frags ++ ")", st1))
  | .raw r, st =>
    (match implodeScalars pfx (rawAsTree r) st with
     | .error e => .error e
     | .ok (frags, st1) =>
       .ok ("(" ++ String.intercalate (" " ++ rel ++ " ") frags ++ ")", st1))
  | _, _ => .error .typeError

end

/-- `dataImplode(data, map, conjunctor)`: compile a condition tree to one
boolean SQL expression, joining the fragment stack with the conjunctor. -/
def dataImplode (pfx : String) (t : CondTree) (st : St) (conj : String) :
    Except MErr (String × St) :=
  match condGoT pfx t st with
  | .error e => .error e
  | .ok (frags, st1) => .ok (String.intercalate (conj ++ " ") frags, st1)

/-! ### The clause assembler (`whereClause`, medoo.js lines 439-521) -/

/-- The compiler context: the configured table prefix and the driver's
literal escaper (`connection.escape`, used only by `arrayQuote` on the
custom-`ORDER` path). -/
structure Ctx where
  pfx : String
  escape : JVal → String

/-- The `GROUP` value: a column name, a list of column names, or a `Raw`. -/
inductive GroupVal where
  | col (s : String)
  | cols (l : List String)
  | raw (r : RawF)

/-- The `HAVING` value: a condition tree or a `Raw`. -/
inductive HavingVal where
  | tree (t : CondTree)
  | raw (r : RawF)

/-- One `ORDER` mapping entry's value: a direction string or a custom
order list. -/
inductive OrderEnt where
  | dir (s : String)
  | darr (l : List JVal)

/-- The `ORDER` value: a column string, a `Raw`, a mapping, or a list. -/
inductive OrderVal where
  | str (s : String)
  | raw (r : RawF)
  | omap (l : List (String × OrderEnt))
  | arr (l : List JVal)

/-- The `LIMIT` value: an integer or a list. -/
inductive LimitVal where
  | num (n : Int)
  | arr (l : List Int)

/-- A `where` object: its condition entries (the reserved structural keys
are carried in their own fields, mirroring the copy-then-delete of
medoo.js lines 444-449). -/
structure WSpec where
  cond : CondTree := []
  group : Option GroupVal := none
  having : Option HavingVal := none
  order : Option OrderVal := none
  limit : Option LimitVal := none

/-- The `where` argument: `null`/absent, a `Raw`, or a where object. -/
inductive WhereV where
  | none
  | raw (r : RawF)
  | spec (w : WSpec)

/-- JS truthiness of `where.GROUP` (`''` is falsy; arrays and objects are
truthy). -/
def groupTruthy : GroupVal → Bool
  | .col s => s ≠ ""
  | _ => true

/-- JS truthiness of `where.ORDER`. -/
def orderTruthy : OrderVal → Bool
  | .str s => s ≠ ""
  | _ => true

/-- JS truthiness of `where.LIMIT` (`0` is falsy). -/
def limitTruthy : LimitVal → Bool
  | .num n => n ≠ 0
  | .arr _ => true

/-- `arrayQuote(array)` from medoo.js lines 166-176: numbers verbatim,
anything else through the driver's escaper, comma-joined. -/
def arrayQuote (ctx : Ctx) (l : List JVal) : String :=
  String.intercalate "," (l.map (fun v =>
    match v with
    | .num n => toString n
    | v => ctx.escape v))

/-- One entry of the `ORDER` mapping form (medoo.js lines 483-491): a list
value compiles to `FIELD(...)`, `ASC`/`DESC` to a directed column, a
numeric key to a bare quoted column; anything else is skipped. -/
def orderEntry (ctx : Ctx) (key : String) (e : OrderEnt) : Except MErr (Option String) :=
  match e with
  | .darr l => do
    let q ← columnQuote ctx.pfx key
    .ok (some ("FIELD(" ++ q ++ ", " ++ arrayQuote ctx l ++ ")"))
  | .dir d =>
    if d = "ASC" ∨ d = "DESC" then do
      let q ← columnQuote ctx.pfx key
      .ok (some (q ++ " " ++ d))
    else if isIntKey key then do
      let q ← columnQuote ctx.pfx d
      .ok (some q)
    else .ok none

def orderMapGo (ctx : Ctx) : List (String × OrderEnt) → Except MErr (List String)
  | [] => .ok []
  | (k, e) :: rest => do
    let fr ← orderEntry ctx k e
    let frs ← orderMapGo ctx rest
    .ok (fr.toList ++ frs)

/-- The `ORDER` array form (medoo.js lines 493-501): string elements are
quoted, others skipped. -/
def orderArrGo (ctx : Ctx) : List JVal → Except MErr (List String)
  | [] => .ok []
  | v :: rest =>
    match v with
    | .str s => do
      let q ← columnQuote ctx.pfx s
      let frs ← orderArrGo ctx rest
      .ok (q :: frs)
    | _ => orderArrGo ctx rest

/-- The `LIMIT` text appended last (medoo.js lines 509-515): skipped when
`where.LIMIT` is falsy, `LIMIT n` for a number, `LIMIT cnt OFFSET off` for
a 2-element list. -/
def limitClause : Option LimitVal → String
  | some lim =>
    if limitTruthy lim then
      match lim with
      | .num n => " LIMIT " ++ toString n
      | .arr l =>
        match l with
        | [off, cnt] => " LIMIT " ++ toString cnt ++ " OFFSET " ++ toString off
        | _ => ""
    else ""
  | none => ""

/-- The WHERE / GROUP BY / HAVING / ORDER BY portion of `whereClause`
(medoo.js lines 442-506), before the LIMIT text is appended. -/
def whereClausePre (ctx : Ctx) (w : WSpec) (st : St) : Except MErr (String × St) := do
    let (s1, st1) ←
      if w.cond.isEmpty then (.ok ("", st) : Except MErr (String × St))
      else do
        let (s, st') ← dataImplode ctx.pfx w.cond st " AND"
        .ok (" WHERE " ++ s, st')
    let (s2, st2) ←
      match w.group with
      | some g =>
        if groupTruthy g then do
          let (gs, stg) ←
            match g with
            | .cols l => do
              let qs ← l.mapM (columnQuote ctx.pfx)
              (.ok (String.intercalate "," qs, st1) : Except MErr (String × St))
            | .raw r => do
              let (q, m) ← buildRaw ctx.pfx r st1.map
              .ok (q, ⟨m, st1.guid⟩)
            | .col s => do
              let q ← columnQuote ctx.pfx s
              .ok (q, st1)
          match w.having with
          | some h => do
            let (hs, sth) ←
              match h with
              | .raw r => do
                let (q, m) ← buildRaw ctx.pfx r stg.map
                (.ok (q, (⟨m, stg.guid⟩ : St)) : Except MErr (String × St))
              | .tree t => dataImplode ctx.pfx t stg " AND"
            .ok (" GROUP BY " ++ gs ++ " HAVING " ++ hs, sth)
          | none => .ok (" GROUP BY " ++ gs, stg)
        else .ok ("", st1)
      | none => .ok ("", st1)
    let (s3, st3) ←
      match w.order with
      | some o =>
        if orderTruthy o then
          match o with
          | .raw r => do
            let (q, m) ← buildRaw ctx.pfx r st2.map
            (.ok (" ORDER BY " ++ q, (⟨m, st2.guid⟩ : St)) : Except MErr (String × St))
          | .omap l => do
            let frs ← orderMapGo ctx l
            .ok (" ORDER BY " ++ String.intercalate "," frs, st2)
          | .arr l => do
            let frs ← orderArrGo ctx l
            .ok (" ORDER BY " ++ String.intercalate "," frs, st2)
          | .str s => do
            let q ← columnQuote ctx.pfx s
            .ok (" ORDER BY " ++ q, st2)
        else .ok ("", st2)
      | none => .ok ("", st2)
    .ok (s1 ++ s2 ++ s3, st3)

/-- `whereClause(where, map)` from medoo.js lines 439-521: WHERE from the
non-reserved entries, then GROUP BY (with HAVING nested inside its guard),
ORDER BY, and finally the LIMIT text. -/
def whereClause (ctx : Ctx) (w : WhereV) (st : St) : Except MErr (String × St) :=
  match w with
  | .none => .ok ("", st)
  | .raw r =>
    (match buildRaw ctx.pfx r st.map with
     | .error e => .error e
     | .ok (q, m) => .ok (" " ++ q, ⟨m, st.guid⟩))
  | .spec w =>
    (match whereClausePre ctx w st with
     | .error e => .error e
     | .ok (s, st3) => .ok (s ++ limitClause w.limit, st3))

/-! ### The column projection compiler (`columnPush`, medoo.js lines 179-223) -/

/-- A column-spec node: a primitive (selection strings live here), a `Raw`
fragment, a JS array, or a plain object. -/
inductive CVal where
  | j (v : JVal)
  | raw (r : RawF)
  | arr (l : List CVal)
  | obj (l : List (String × CVal))

/-- The leftmost `[a-zA-Z0-9_\.]+` run of a string (the column token of
the projection regexes); `none` models a `null` match. -/
def firstDotWordRun (s : String) : Option String :=
  go s.data
where
  go : List Char → Option String
    | [] => none
    | c :: rest =>
      if dotWord c then some (String.mk ((c :: rest).takeWhile dotWord))
      else go rest

/-- The optional `(?:\s*\((?<alias>[a-zA-Z0-9_]+)\))?` group: when it fails
nothing is consumed. -/
def parseAlias (cs : List Char) : Option String × List Char :=
  match (cs.dropWhile jsSpace) with
  | '(' :: r =>
    let run := r.takeWhile wordChar
    if run.isEmpty then (none, cs)
    else
      match r.dropWhile wordChar with
      | ')' :: r2 => (some (String.mk run), r2)
      | _ => (none, cs)
  | _ => (none, cs)

/-- Case-insensitive match of one type name followed by `]`. -/
def parseTypeName (names : List String) (cs : List Char) : Option String :=
  match names with
  | [] => none
  | n :: rest =>
    match matchOneKw n cs with
    | some (txt, r) => if r.take 1 = [']'] then some (String.mk txt) else parseTypeName rest cs
    | none => parseTypeName rest cs

/-- The optional `(?:\s*\[(?<type>...)\])?` group. -/
def parseTypeSuf (names : List String) (cs : List Char) : Option String :=
  match (cs.dropWhile jsSpace) with
  | '[' :: r => parseTypeName names r
  | _ => none

/-- The leftmost match of the selection-string regex of medoo.js line 207:
`(?<column>[a-zA-Z0-9_\.]+)(?:\s*\((?<alias>...)\))?(?:\s*\[(?<type>...)\])?`
(types `String|Bool|Int|Number|Object|JSON`, case-insensitive). -/
def parseColProj (s : String) : Option (String × Option String × Option String) :=
  go s.data
where
  go : List Char → Option (String × Option String × Option String)
    | [] => none
    | c :: rest =>
      if dotWord c then
        let run := (c :: rest).takeWhile dotWord
        let after := (c :: rest).dropWhile dotWord
        let (al, after2) := parseAlias after
        let ty := parseTypeSuf ["String", "Bool", "Int", "Number", "Object", "JSON"] after2
        some (String.mk run, al, ty)
      else go rest

/-- The branch of `columnPush` for an integer-keyed string entry (medoo.js
lines 202-218): the wildcard-under-join check, then alias/type parsing.
Returns the pushed fragment and the mutated entry value. -/
def colStrEntry (pfx : String) (isJoin : Bool) (s : String) :
    Except MErr (String × CVal) :=
  if isJoin && s.data.contains '*' then .error .ambiguousWildcard
  else
    match parseColProj s with
    | none => .error .typeError
    | some (col, al, ty) =>
      match al with
      | some a => do
        let qc ← columnQuote pfx col
        let qa ← columnQuote pfx a
        let newVal := a ++ (match ty with | some t => " [" ++ t ++ "]" | none => "")
        .ok (qc ++ " AS " ++ qa, .j (.str newVal))
      | none => do
        let qc ← columnQuote pfx col
        .ok (qc, .j (.str s))

mutual

/-- `columnPush(columns, map, root, isJoin)` from medoo.js lines 179-223.
Returns the SELECT-list text, the columns value as mutated in place
(aliases normalised), and the parameter map (fed by `Raw` columns). -/
def columnPush (pfx : String) (cols : CVal) (m : ParamMap) (root isJoin : Bool) :
    Except MErr (String × CVal × ParamMap) :=
  match cols with
  | .j (.str s) =>
    if s = "*" then .ok ("*", .j (.str s), m)
    else
      -- `columns = [columns]`: one entry with integer key `0`; the local
      -- wrapping array is invisible to the caller, so the returned
      -- columns value is the original string.
      (match colStrEntry pfx isJoin s with
       | .error e => .error e
       | .ok (frag, _) => .ok (frag, .j (.str s), m))
  | .arr l =>
    (match colArrGo pfx isJoin l m with
     | .error e => .error e
     | .ok (frags, l2, m2) => .ok (String.intercalate "," frags, .arr l2, m2))
  | .obj l =>
    (match colObjGo pfx root isJoin l.length l m with
     | .error e => .error e
     | .ok (frags, l2, m2) => .ok (String.intercalate "," frags, .obj l2, m2))
  | .raw r =>
    -- `Object.entries` of a `Raw` instance: the `value` entry (a string
    -- under a non-integer key) and the `map` entry (a plain object) both
    -- fall through every branch of the loop.
    .ok ("", .raw r, m)
  | .j .jnull => .error .typeError
  | .j .undefined => .error .typeError
  | .j v => .ok ("", .j v, m)

/-- The entry loop over a JS array: keys are the indices, so only the
plain-array branch (recursion) and the string branch apply; `Raw` values
under integer keys fall through (the source guards that branch with
`!isIntKey`). -/
def colArrGo (pfx : String) (isJoin : Bool) :
    List CVal → ParamMap → Except MErr (List String × List CVal × ParamMap)
  | [], m => .ok ([], [], m)
  | v :: rest, m =>
    match v with
    | .arr l =>
      (match columnPush pfx (.arr l) m false isJoin with
       | .error e => .error e
       | .ok (frag, v2, m2) =>
         match colArrGo pfx isJoin rest m2 with
         | .error e => .error e
         | .ok (frags, rest2, m3) => .ok (frag :: frags, v2 :: rest2, m3))
    | .j (.str s) =>
      (match colStrEntry pfx isJoin s with
       | .error e => .error e
       | .ok (frag, v2) =>
         match colArrGo pfx isJoin rest m with
         | .error e => .error e
         | .ok (frags, rest2, m2) => .ok (frag :: frags, v2 :: rest2, m2))
    | _ =>
      (match colArrGo pfx isJoin rest m with
       | .error e => .error e
       | .ok (frags, rest2, m2) => .ok (frags, v :: rest2, m2))

/-- The entry loop over a plain object (`total` is
`Object.keys(columns).length` of the object being walked). -/
def colObjGo (pfx : String) (root isJoin : Bool) (total : Nat) :
    List (String × CVal) → ParamMap → Except MErr (List String × List (String × CVal) × ParamMap)
  | [], m => .ok ([], [], m)
  | (key, v) :: rest, m =>
    let intK := isIntKey key
    match v with
    | .arr l =>
      if !intK && root && total = 1 then
        -- single-key nested selection: quote the key, then the nested list
        (match columnQuote pfx key with
         | .error e => .error e
         | .ok qk =>
           match columnPush pfx (.arr l) m false isJoin with
           | .error e => .error e
           | .ok (frag, v2, m2) =>
             match colObjGo pfx root isJoin total rest m2 with
             | .error e => .error e
             | .ok (frags, rest2, m3) => .ok (qk :: frag :: frags, (key, v2) :: rest2, m3))
      else
        (match columnPush pfx (.arr l) m false isJoin with
         | .error e => .error e
         | .ok (frag, v2, m2) =>
           match colObjGo pfx root isJoin total rest m2 with
           | .error e => .error e
           | .ok (frags, rest2, m3) => .ok (frag :: frags, (key, v2) :: rest2, m3))
    | .raw r =>
      if !intK then
        (match buildRaw pfx r m with
         | .error e => .error e
         | .ok (spliced, m2) =>
           match firstDotWordRun key with
           | none => .error .typeError
           | some col =>
             match columnQuote pfx col with
             | .error e => .error e
             | .ok qc =>
               match colObjGo pfx root isJoin total rest m2 with
               | .error e => .error e
               | .ok (frags, rest2, m3) =>
                 .ok ((spliced ++ " AS " ++ qc) :: frags, (key, v) :: rest2, m3))
      else
        (match colObjGo pfx root isJoin total rest m with
         | .error e => .error e
         | .ok (frags, rest2, m2) => .ok (frags, (key, v) :: rest2, m2))
    | .j (.str s) =>
      if intK then
        (match colStrEntry pfx isJoin s with
         | .error e => .error e
         | .ok (frag, v2) =>
           match colObjGo pfx root isJoin total rest m with
           | .error e => .error e
           | .ok (frags, rest2, m2) => .ok (frag :: frags, (key, v2) :: rest2, m2))
      else
        (match colObjGo pfx root isJoin total rest m with
         | .error e => .error e
         | .ok (frags, rest2, m2) => .ok (frags, (key, v) :: rest2, m2))
    | _ =>
      (match colObjGo pfx root isJoin total rest m with
       | .error e => .error e
       | .ok (frags, rest2, m2) => .ok (frags, (key, v) :: rest2, m2))

end

/-! ### The join clause builder (`buildJoin`, medoo.js lines 610-664) -/

/-- A join relation: a column string (USING), an array (USING when its
first element is a truthy string, else iterated as an object), or a
left-to-right column mapping (ON). -/
inductive JRel where
  | str (s : String)
  | arr (l : List JVal)
  | obj (l : List (String × String))

/-- The direction group `\[(?<join>\<\>?|\>\<?)\]` with its brackets;
`cs` starts just after `[`.  Greedy with backtracking against the
closing bracket. -/
def joinDirParse : List Char → Option (String × List Char)
  | '<' :: '>' :: ']' :: r => some ("<>", r)
  | '<' :: ']' :: r => some ("<", r)
  | '>' :: '<' :: ']' :: r => some ("><", r)
  | '>' :: ']' :: r => some (">", r)
  | _ => none

/-- The optional `\s?(\((?<alias>[a-zA-Z0-9_]+)\))?` suffix. -/
def parseJoinAlias (cs : List Char) : Option String :=
  let cs2 := match cs with
    | c :: r => if jsSpace c then r else cs
    | [] => []
  match cs2 with
  | '(' :: r =>
    let run := r.takeWhile wordChar
    if run.isEmpty then none
    else
      match r.dropWhile wordChar with
      | ')' :: _ => some (String.mk run)
      | _ => none
  | _ => none

/-- The leftmost match of the join-key regex
`(\[(?<join>\<\>?|\>\<?)\])?(?<table>[a-zA-Z0-9_]+)\s?(\((?<alias>...)\))?`
(medoo.js line 620): `(direction?, table, alias?)`, or `none` for a `null`
match (a key with no identifier character and no well-formed tag). -/
def joinKeyMatch (s : String) : Option (Option String × String × Option String) :=
  go s.data
where
  go : List Char → Option (Option String × String × Option String)
    | [] => none
    | c :: rest =>
      if c = '[' then
        match joinDirParse rest with
        | some (dir, r2) =>
          let tbl := r2.takeWhile wordChar
          if tbl.isEmpty then go rest
          else some (some dir, String.mk tbl, parseJoinAlias (r2.dropWhile wordChar))
        | none => go rest
      else if wordChar c then
        some (none, String.mk ((c :: rest).takeWhile wordChar),
          parseJoinAlias ((c :: rest).dropWhile wordChar))
      else go rest

/-- `joinArray[tag]`: the direction keyword; an unknown tag reads as JS
`undefined`, which a template literal would stringify. -/
def joinDirWord (tag : String) : String :=
  if tag = ">" then "LEFT"
  else if tag = "<" then "RIGHT"
  else if tag = "<>" then "FULL"
  else if tag = "><" then "INNER"
  else "undefined"

/-- The `ON` conjunction over relation entries (medoo.js lines 631-651):
a dotted left key goes through `columnQuote`, otherwise it is qualified
with the base table; the right side is qualified with the joined table's
alias or name.  The bare `"${key}"` interpolations of the source are kept
as such. -/
def joinOnGo (pfx : String) (table rightTbl : String) :
    List (String × String) → Except MErr (List String)
  | [] => .ok []
  | (key, value) :: rest => do
    let leftSide ←
      if key.data.contains '.' then columnQuote pfx key
      else do
        let tq ← tableQuote pfx table
        .ok (tq ++ ".\"" ++ key ++ "\"")
    let tq2 ← tableQuote pfx rightTbl
    let frags ← joinOnGo pfx table rightTbl rest
    .ok ((leftSide ++ " = " ++ tq2 ++ ".\"" ++ value ++ "\"") :: frags)

/-- The relation clause of one join entry. -/
def joinRelStr (pfx : String) (table rightTbl : String) : JRel → Except MErr String
  | .str s => .ok ("USING (\"" ++ s ++ "\")")
  | .arr l =>
    match l.head? with
    | some (.str s) =>
      if s ≠ "" then
        .ok ("USING (\"" ++ String.intercalate "\", \"" (l.map JVal.joinStr) ++ "\")")
      else do
        let frags ← joinOnGo pfx table rightTbl
          (l.enum.map (fun e => (toString e.1, e.2.toStr)))
        .ok ("ON " ++ String.intercalate " AND " frags)
    | _ => do
      let frags ← joinOnGo pfx table rightTbl
        (l.enum.map (fun e => (toString e.1, e.2.toStr)))
      .ok ("ON " ++ String.intercalate " AND " frags)
  | .obj l => do
    let frags ← joinOnGo pfx table rightTbl l
    .ok ("ON " ++ String.intercalate " AND " frags)

/-- `buildJoin(table, join)` from medoo.js lines 610-664: entries whose
key matches with a direction tag become JOIN clauses; a matching key with
no tag is skipped; a key whose regex match is `null` crashes on
`match.groups` (TypeError). -/
def buildJoin (pfx : String) (table : String) : List (String × JRel) → Except MErr String
  | [] => .ok ""
  | (key, rel) :: rest =>
    match joinKeyMatch key with
    | none => .error .typeError
    | some (dirOpt, tbl, al) =>
      match dirOpt with
      | none =>
        -- `match.groups.join` is undefined: the entry is silently skipped
        buildJoin pfx table rest
      | some dir => do
        let relStr ← joinRelStr pfx table (al.getD tbl) rel
        let tq ← tableQuote pfx tbl
        let tname ← match al with
          | some a => do
            let qa ← tableQuote pfx a
            (.ok (tq ++ " " ++ "AS " ++ qa ++ " ") : Except MErr String)
          | none => .ok (tq ++ " ")
        let frags ← buildJoin pfx table rest
        .ok (joinDirWord dir ++ " JOIN " ++ tname ++ relStr ++
          (if frags = "" then "" else " " ++ frags))

/-! ### The column-map builder (`columnMap`, medoo.js lines 667-701) -/

/-- An entry of the column map: output column name mapped to
`[resultKey, declaredType]`. -/
abbrev ColMap := List (String × String × String)

/-- JS object insert-or-overwrite on the column map. -/
def cmInsert (m : ColMap) (k : String) (v : String × String) : ColMap :=
  if m.any (fun e => e.1 == k) then m.map (fun e => if e.1 == k then (k, v) else e)
  else m ++ [(k, v)]

def cmapGet (m : ColMap) (k : String) : Option (String × String) :=
  (m.find? (fun e => e.1 == k)).map (·.2)

/-- The column/alias/type parse of the column-map regexes: an optional
`([a-zA-Z0-9_]+\.)` qualifier, the column, then the optional groups
handed in (`withAlias` for line 680's regex, the `types` list differs
between the two call sites). -/
def parseColMapStr (withAlias : Bool) (types : List String) (s : String) :
    Option (String × Option String × Option String) :=
  go s.data
where
  go : List Char → Option (String × Option String × Option String)
    | [] => none
    | c :: rest =>
      if wordChar c then
        let run := (c :: rest).takeWhile wordChar
        let after := (c :: rest).dropWhile wordChar
        let (col, after2) :=
          match after with
          | '.' :: r2 =>
            let run2 := r2.takeWhile wordChar
            if run2.isEmpty then (String.mk run, after)
            else (String.mk run2, r2.dropWhile wordChar)
          | _ => (String.mk run, after)
        let (al, after3) := if withAlias then parseAlias after2 else (none, after2)
        let ty := parseTypeSuf types after3
        some (col, al, ty)
      else go rest

/-- `columnMap(columns, stack, root)` from medoo.js lines 667-701.  `'*'`,
falsy, non-object and array specs leave the stack untouched (so flat list
specs contribute nothing); plain objects record integer-keyed selection
strings and `Raw` entries; a single-key nested array at the root records
the key itself, and the recursion into the array returns immediately. -/
def columnMap (cols : CVal) (stack : ColMap) (root : Bool) : Except MErr ColMap :=
  match cols with
  | .obj l => goEntries l.length l stack
  | _ => .ok stack
where
  goEntries (total : Nat) : List (String × CVal) → ColMap → Except MErr ColMap
    | [], st => .ok st
    | (key, v) :: rest, st =>
      if isIntKey key then
        match v with
        | .j (.str s) =>
          (match parseColMapStr true ["String", "Bool", "Int", "Number", "Object", "JSON"] s with
           | none => .error .typeError
           | some (col, al, ty) =>
             goEntries total rest (cmInsert st s (al.getD col, ty.getD "String")))
        | _ => .error .typeError  -- `value.match` on a non-string
      else
        match v with
        | .raw _ =>
          (match parseColMapStr false ["String", "Bool", "Int", "Number"] key with
           | none => .error .typeError
           | some (col, _, ty) =>
             goEntries total rest (cmInsert st key (col, ty.getD "String")))
        | .arr _ =>
          -- nested array: recorded at a single-key root, and
          -- `columnMap(value, stack, false)` returns at its array guard
          if root && total = 1 then
            goEntries total rest (cmInsert st key (key, "String"))
          else goEntries total rest st
        | _ => goEntries total rest st

/-! ### The result mapper (`dataMap`, medoo.js lines 704-799) -/

/-- A flat database row. -/
abbrev Row := List (String × JVal)

/-- `data[k]`: `undefined` when the field is absent. -/
def rowGet (data : Row) (k : String) : JVal :=
  ((data.find? (fun e => e.1 == k)).map (·.2)).getD .undefined

/-- A reconstructed result value: a primitive (possibly coerced), a value
produced by `JSON.parse`, or a nested result object. -/
inductive RVal where
  | j (v : JVal)
  | obj (l : List (String × RVal))

/-- The result object being filled. -/
abbrev ResObj := List (String × RVal)

/-- JS object insert-or-overwrite on the result object. -/
def rInsert (m : ResObj) (k : String) (v : RVal) : ResObj :=
  if m.any (fun e => e.1 == k) then m.map (fun e => if e.1 == k then (k, v) else e)
  else m ++ [(k, v)]

/-- The JS builtins `dataMap` leans on, supplied by the runtime:
`parseFloat`, `parseInt`, and `JSON.parse` (`none` models a thrown parse
error). -/
structure JsCtx where
  parseFloatJ : JVal → JVal
  parseIntJ : JVal → JVal
  jsonParseJ : JVal → Option RVal

mutual

/-- One array element under `Array.prototype.join`: `null`/`undefined`
render empty, other primitives via `String()`, nested arrays join
recursively, objects as `[object Object]`. -/
def CVal.joinOne : CVal → String
  | .j .jnull => ""
  | .j .undefined => ""
  | .j v => v.toStr
  | .raw _ => "[object Object]"
  | .obj _ => "[object Object]"
  | .arr l => CVal.joinAll l

def CVal.joinAll : List CVal → String
  | [] => ""
  | [v] => CVal.joinOne v
  | v :: rest => CVal.joinOne v ++ "," ++ CVal.joinAll rest

end

/-- JS property-name/string coercion of a column-spec node: primitives via
`String()`, arrays joined with `,`, objects and `Raw` as
`[object Object]`. -/
def CVal.propKey : CVal → String
  | .j v => v.toStr
  | .raw _ => "[object Object]"
  | .obj _ => "[object Object]"
  | .arr l => CVal.joinAll l

def CVal.isRawB : CVal → Bool
  | .raw _ => true
  | _ => false

/-- `Object.assign(stack, data)` into the fresh per-call stack: the raw
row copied field by field. -/
def assignRow (data : Row) : ResObj :=
  data.foldl (fun st e => rInsert st e.1 (.j e.2)) []

/-- `Object.entries` of a `Raw` instance viewed as a column spec. -/
def rawCValEntries (r : RawF) : List (String × CVal) :=
  [("value", .j (.str r.value)), ("map", .obj (r.map.map (fun e => (e.1, .j e.2))))]

/-- One mapped field of `dataMap`'s loop (medoo.js lines 744-791): the
column-map lookup (`continue` when absent), the `Raw`+`Object`/`JSON`
skip, the `null` short-circuit, then the per-type coercion — `Object` and
`JSON` try `JSON.parse` and fall back to the raw value on a parse error. -/
def dataMapField (js : JsCtx) (data : Row) (cmap : ColMap) (isRawE : Bool)
    (lookupKey : String) : Option (String × RVal) :=
  match cmapGet cmap lookupKey with
  | none => none
  | some (ck, ty) =>
    let item := rowGet data ck
    if ty ≠ "" then
      if isRawE && (ty = "Object" || ty = "JSON") then none
      else if item = .jnull then some (ck, .j .jnull)
      else
        some (ck,
          if ty = "Number" then .j (js.parseFloatJ item)
          else if ty = "Int" then .j (js.parseIntJ item)
          else if ty = "Bool" then .j (.bool item.truthy)
          else if ty = "Object" || ty = "JSON" then
            match js.jsonParseJ item with
            | some rv => rv
            | none => .j item
          else .j item)
    else some (ck, .j item)

/-- The entry loop of non-root `dataMap` (medoo.js lines 740-798),
parameterised by the recursive call used for nested sub-objects. -/
def dataMapEntries (recur : CVal → ResObj) (js : JsCtx) (data : Row) (cmap : ColMap) :
    List (String × CVal) → ResObj → ResObj
  | [], stack => stack
  | (key, v) :: rest, stack =>
    let isRawE := v.isRawB
    if isIntKey key || isRawE then
      match dataMapField js data cmap isRawE (if isRawE then key else v.propKey) with
      | some (ck, rv) => dataMapEntries recur js data cmap rest (rInsert stack ck rv)
      | none => dataMapEntries recur js data cmap rest stack
    else
      dataMapEntries recur js data cmap rest (rInsert stack key (.obj (recur v)))

/-- Non-root `dataMap` with explicit depth fuel (the recursion nests only
through the columns value, whose depth bounds it). -/
def dataMapGo (js : JsCtx) (data : Row) (cmap : ColMap) : Nat → CVal → ResObj
  | 0, _ => []
  | fuel + 1, cols =>
    match cols with
    | .j _ => assignRow data
    | .arr _ => assignRow data
    | .raw r => dataMapEntries (dataMapGo js data cmap fuel) js data cmap (rawCValEntries r) []
    | .obj l => dataMapEntries (dataMapGo js data cmap fuel) js data cmap l []

mutual

/-- Nesting depth of a column-spec value (a `Raw` expands to entries of
depth at most 3). -/
def cvalDepth : CVal → Nat
  | .j _ => 1
  | .raw _ => 4
  | .arr l => 1 + cvalDepthL l
  | .obj l => 1 + cvalDepthP l

def cvalDepthL : List CVal → Nat
  | [] => 0
  | v :: rest => max (cvalDepth v) (cvalDepthL rest)

def cvalDepthP : List (String × CVal) → Nat
  | [] => 0
  | e :: rest => max (cvalDepth e.2) (cvalDepthP rest)

end

/-- `dataMap(data, columns, columnMap, stack, false, result)`: the
non-root mapping of one row against a columns spec. -/
def dataMapFields (js : JsCtx) (data : Row) (cmap : ColMap) (cols : CVal) : ResObj :=
  dataMapGo js data cmap (cvalDepth cols) cols

/-- The effect of one root `dataMap` call on `result`. -/
inductive RowOut where
  | push (stack : ResObj)
  | indexed (idx : JVal) (stack : ResObj)

/-- `indexKey.replace(/^[a-zA-Z0-9_]+\./i, '')`. -/
def stripTablePrefix (s : String) : String :=
  let run := s.data.takeWhile wordChar
  match s.data.dropWhile wordChar with
  | '.' :: r => if run.isEmpty then s else String.mk r
  | _ => s

/-- Root `dataMap` (medoo.js lines 705-731): a single-key spec over an
array stores the row's stack at the row's value of that key; everything
else appends. -/
def dataMapRow (js : JsCtx) (data : Row) (cols : CVal) (cmap : ColMap) : RowOut :=
  match cols with
  | .obj [(k, .arr l)] =>
    .indexed (rowGet data (stripTablePrefix k)) (dataMapFields js data cmap (.arr l))
  | cols => .push (dataMapFields js data cmap cols)

/-! ### `get`'s argument pruning (medoo.js lines 845-862) -/

/-- Whether `obj.LIMIT` is truthy. -/
def hasTruthyLimit (w : WSpec) : Bool :=
  match w.limit with
  | some lim => limitTruthy lim
  | none => false

/-- The in-place `delete columns.LIMIT` / `delete where.LIMIT` of `get`
(medoo.js lines 852-862), modelled by returning the post-call state of the
caller's `columns` and `where` objects: with a `where` argument the
deletion hits `where`, otherwise it hits `columns`; the `&&` guard skips
the deletion when `LIMIT` is falsy. -/
def getPrune (columns whereArg : Option WSpec) : Option WSpec × Option WSpec :=
  match whereArg with
  | some w => (columns, some (if hasTruthyLimit w then { w with limit := none } else w))
  | none =>
    match columns with
    | some c => (some (if hasTruthyLimit c then { c with limit := none } else c), none)
    | none => (none, none)

/-! ### The parameterisation fragment of condition trees

`dataImplode` parameterises plain equality, comparison, negation, IN-list
and `REGEXP` entries one-for-one; the fragment below captures the trees
for which every scalar leaf and list element becomes exactly one binding
holding that leaf value.  Excluded (each with a distinct behaviour):
column-to-column positional entries (no binding at all), `Raw` fragments
(spliced), pattern-match entries (`%`-wrapped values), range entries (two
bindings regardless of list length), and booleans under equality or
negation (coerced to `'1'`/`'0'` by `typeMap`). -/

def exOk : Except MErr String → Bool
  | .ok _ => true
  | .error _ => false

/-- Operator/value combinations whose binding is one untouched value per
scalar leaf or list element. -/
def plainOp (op : Option String) (v : CondVal) : Bool :=
  match op with
  | none =>
    (match v with
     | .num _ | .str _ | .jnull | .list _ => true
     | _ => false)
  | some o =>
    if o = "!" then
      (match v with
       | .num _ | .str _ | .jnull | .list _ => true
       | _ => false)
    else if o = ">" ∨ o = ">=" ∨ o = "<" ∨ o = "<=" ∨ o = "REGEXP" then
      (match v with
       | .num _ | .str _ | .bool _ => true
       | _ => false)
    else false

mutual

def plainTree (pfx : String) : CondTree → Bool
  | [] => true
  | (k, v) :: rest => plainEntry pfx k v && plainTree pfx rest

def plainEntry (pfx : String) (key : String) : CondVal → Bool
  | .sub t => (logicalRel key).isSome && plainTree pfx t
  | v =>
    (logicalRel key).isNone &&
    !(isIntKey key && (parseColCol v.toStr).isSome) &&
    (match parseCondKey key with
     | none => false
     | some km =>
       (if km.column.data.contains '(' && km.column.data.contains ')' then true
        else exOk (columnQuote pfx km.column)) &&
       plainOp km.op v)

end

mutual

/-- The scalar leaves and list elements of a tree, in entry order.  (In a
`plainTree` a `.sub` value sits only under a logical key and scalars only
under plain keys, so no key dependence is needed.) -/
def leavesT : CondTree → List JVal
  | [] => []
  | (_, v) :: rest => leavesE v ++ leavesT rest

def leavesE : CondVal → List JVal
  | .num n => [.num n]
  | .str s => [.str s]
  | .bool b => [.bool b]
  | .list l => l
  | .sub t => leavesT t
  | _ => []

end

mutual

/-- The tree with every scalar leaf replaced by `0` and every list element
by `0` (lengths kept): what the generated SQL text may depend on. -/
def maskT : CondTree → CondTree
  | [] => []
  | (k, v) :: rest => (k, maskE v) :: maskT rest

def maskE : CondVal → CondVal
  | .num _ => .num 0
  | .str _ => .num 0
  | .bool _ => .num 0
  | .list l => .list (l.map (fun _ => .num 0))
  | .sub t => .sub (maskT t)
  | w => w

end

/-- Every generated key of the map was made with a guid below `g` (so keys
generated from `g` on are fresh). -/
def genFresh (m : ParamMap) (g : Nat) : Bool :=
  m.all (fun e =>
    match e.1 with
    | .gen g2 _ => decide (g2 < g)
    | .named _ => true)

mutual

/-- Structural size of a condition tree, the induction measure for the
parameterisation theorem. -/
def sizeT : CondTree → Nat
  | [] => 0
  | (_, v) :: rest => sizeV v + sizeT rest + 1

def sizeV : CondVal → Nat
  | .sub t => sizeT t + 1
  | _ => 0

end

/-! ## Theorems

### String plumbing -/

theorem mk_append_mk (x y : List Char) : String.mk x ++ String.mk y = String.mk (x ++ y) := rfl

theorem mk_data (s : String) : String.mk s.data = s := rfl

theorem wordChar_ne_dot {c : Char} (h : wordChar c = true) : c ≠ '.' := by
  intro he
  subst he
  exact absurd h (by decide)

theorem span_word_dotted (a b : List Char) (ha : ∀ c ∈ a, wordChar c = true) :
    (a ++ '.' :: b).takeWhile wordChar = a ∧ (a ++ '.' :: b).dropWhile wordChar = '.' :: b := by
  induction a with
  | nil =>
    refine ⟨?_, ?_⟩ <;>
      simp [List.takeWhile_cons, List.dropWhile_cons, show wordChar '.' = false by decide]
  | cons x xs ih =>
    have hx : wordChar x = true := ha x (List.mem_cons_self _ _)
    have ihh := ih (fun c hc => ha c (List.mem_cons_of_mem _ hc))
    refine ⟨?_, ?_⟩
    · simp [List.takeWhile_cons, hx, ihh.1]
    · simp [List.dropWhile_cons, hx, ihh.2]

theorem replaceFirstDot_word (a b : List Char) (ha : ∀ c ∈ a, wordChar c = true) :
    replaceFirstDot (a ++ '.' :: b) = a ++ '"' :: '.' :: '"' :: b := by
  induction a with
  | nil => simp [replaceFirstDot]
  | cons x xs ih =>
    have hx : x ≠ '.' := wordChar_ne_dot (ha x (List.mem_cons_self _ _))
    simp [replaceFirstDot, hx, ih (fun c hc => ha c (List.mem_cons_of_mem _ hc))]

theorem data_mk (l : List Char) : (String.mk l).data = l := rfl

theorem data_append (s t : String) : (s ++ t).data = s.data ++ t.data := rfl

theorem contains_dot_append (a b : List Char) : (a ++ '.' :: b).contains '.' = true :=
  List.elem_iff.mpr (by simp)

theorem contains_dot_word (cs : List Char) (h : ∀ c ∈ cs, wordChar c = true) :
    cs.contains '.' = false := by
  rw [Bool.eq_false_iff]
  intro hc
  exact wordChar_ne_dot (h '.' (List.elem_iff.mp hc)) rfl

theorem all_word_takeWhile (cs : List Char) (h : ∀ c ∈ cs, wordChar c = true) :
    cs.takeWhile wordChar = cs ∧ cs.dropWhile wordChar = [] := by
  induction cs with
  | nil => exact ⟨rfl, rfl⟩
  | cons x xs ih =>
    have hx := h x (List.mem_cons_self _ _)
    have ihh := ih (fun c hc => h c (List.mem_cons_of_mem _ hc))
    refine ⟨?_, ?_⟩
    · simp [List.takeWhile_cons, hx, ihh.1]
    · simp [List.dropWhile_cons, hx, ihh.2]

theorem colRefTest_iff (cs : List Char) :
    colRefTest cs = true ↔
      (cs ≠ [] ∧ ∀ c ∈ cs, wordChar c = true) ∨
      (∃ a b, cs = a ++ '.' :: b ∧ a ≠ [] ∧ b ≠ [] ∧
        (∀ c ∈ a, wordChar c = true) ∧ (∀ c ∈ b, wordChar c = true)) := by
  constructor
  · intro h
    unfold colRefTest at h
    rw [Bool.and_eq_true] at h
    obtain ⟨h1, h2⟩ := h
    have hsplit : cs.takeWhile wordChar ++ cs.dropWhile wordChar = cs :=
      List.takeWhile_append_dropWhile wordChar cs
    have hta : ∀ c ∈ cs.takeWhile wordChar, wordChar c = true :=
      fun c hc => List.mem_takeWhile_imp hc
    have hane : cs.takeWhile wordChar ≠ [] := by
      simpa [List.isEmpty_iff] using h1
    split at h2
    · rename_i heq
      left
      have hcs : cs.takeWhile wordChar = cs := by
        rw [heq, List.append_nil] at hsplit
        exact hsplit
      exact ⟨fun hnil => hane (hcs.trans hnil),
        fun c hc => hta c (by rw [hcs]; exact hc)⟩
    · rename_i b heq
      right
      rw [Bool.and_eq_true] at h2
      exact ⟨cs.takeWhile wordChar, b, (heq ▸ hsplit).symm, hane,
        by simpa [List.isEmpty_iff] using h2.1, hta,
        fun c hc => (List.all_eq_true.mp h2.2) c hc⟩
    · exact absurd h2 (by simp)
  · intro h
    rcases h with ⟨hne, hall⟩ | ⟨a, b, heq, hane, hbne, haw, hbw⟩
    · obtain ⟨ht, hd⟩ := all_word_takeWhile cs hall
      unfold colRefTest
      rw [Bool.and_eq_true]
      refine ⟨?_, ?_⟩
      · rw [ht]
        simpa [List.isEmpty_iff] using hne
      · rw [hd]
    · subst heq
      obtain ⟨ht, hd⟩ := span_word_dotted a b haw
      unfold colRefTest
      rw [Bool.and_eq_true]
      refine ⟨?_, ?_⟩
      · rw [ht]
        simpa [List.isEmpty_iff] using hane
      · rw [hd]
        simpa [List.isEmpty_iff, List.all_eq_true] using ⟨hbne, hbw⟩

/-! ### C5: identifier quoting -/

/-- C5: `tableQuote` succeeds exactly on `^[A-Za-z0-9_]+$`, producing the
double-quoted prefix-concatenated name, and fails with the
invalid-identifier error otherwise; `columnQuote` succeeds exactly on
`^[A-Za-z0-9_]+(\.[A-Za-z0-9_]+)?$`, quoting an undotted reference without
the prefix and a dotted reference per segment rejoined with `.`, with the
prefix on the first segment only.  Both are plain functions of the prefix
and the input, hence deterministic and pure. -/
theorem quoting_matches_identifier_grammar (pfx s : String) :
    (tableQuote pfx s = .ok ("\"" ++ pfx ++ s ++ "\"") ↔
      s.data ≠ [] ∧ ∀ c ∈ s.data, wordChar c = true) ∧
    (¬ (s.data ≠ [] ∧ ∀ c ∈ s.data, wordChar c = true) →
      tableQuote pfx s = .error (.incorrectTable s)) ∧
    ((s.data ≠ [] ∧ ∀ c ∈ s.data, wordChar c = true) →
      columnQuote pfx s = .ok ("\"" ++ s ++ "\"")) ∧
    (∀ a b : List Char, s.data = a ++ '.' :: b → a ≠ [] → b ≠ [] →
      (∀ c ∈ a, wordChar c = true) → (∀ c ∈ b, wordChar c = true) →
      columnQuote pfx s = .ok ("\"" ++ pfx ++ String.mk a ++ "\".\"" ++ String.mk b ++ "\"")) ∧
    (∀ out, columnQuote pfx s = .ok out →
      (s.data ≠ [] ∧ (∀ c ∈ s.data, wordChar c = true) ∧ out = "\"" ++ s ++ "\"") ∨
      (∃ a b, s.data = a ++ '.' :: b ∧ a ≠ [] ∧ b ≠ [] ∧ (∀ c ∈ a, wordChar c = true) ∧
        (∀ c ∈ b, wordChar c = true) ∧
        out = "\"" ++ pfx ++ String.mk a ++ "\".\"" ++ String.mk b ++ "\"")) := by
  have hident : isIdentS s = true ↔ s.data ≠ [] ∧ ∀ c ∈ s.data, wordChar c = true := by
    simp [isIdentS, isIdentL, List.all_eq_true, List.isEmpty_iff]
  have hdotted : ∀ a b : List Char, s.data = a ++ '.' :: b → (∀ c ∈ a, wordChar c = true) →
      ("\"" ++ pfx ++ String.mk (replaceFirstDot s.data) ++ "\"" : String) =
        "\"" ++ pfx ++ String.mk a ++ "\".\"" ++ String.mk b ++ "\"" := by
    intro a b heq haw
    rw [heq, replaceFirstDot_word a b haw]
    apply String.ext
    simp [data_append, data_mk]
  refine ⟨?_, ?_, ?_, ?_, ?_⟩
  · simp only [tableQuote]
    by_cases h : isIdentS s = true
    · rw [if_pos h]
      exact ⟨fun _ => hident.mp h, fun _ => rfl⟩
    · rw [if_neg h]
      exact ⟨fun he => by simp at he, fun hp => absurd (hident.mpr hp) h⟩
  · intro hniv
    have h : isIdentS s ≠ true := fun hh => hniv (hident.mp hh)
    simp only [tableQuote]
    rw [if_neg h]
  · intro ⟨hne, hall⟩
    have ht : colRefTest s.data = true := (colRefTest_iff _).mpr (Or.inl ⟨hne, hall⟩)
    have hc : s.data.contains '.' = false := contains_dot_word _ hall
    simp only [columnQuote]
    rw [if_pos ht, if_neg (by rw [hc]; simp)]
  · intro a b heq hane hbne haw hbw
    have ht : colRefTest s.data = true :=
      (colRefTest_iff _).mpr (Or.inr ⟨a, b, heq, hane, hbne, haw, hbw⟩)
    have hc : s.data.contains '.' = true := by rw [heq]; exact contains_dot_append a b
    simp only [columnQuote]
    rw [if_pos ht, if_pos hc]
    exact congrArg Except.ok (hdotted a b heq haw)
  · intro out hout
    simp only [columnQuote] at hout
    by_cases ht : colRefTest s.data = true
    · rcases (colRefTest_iff _).mp ht with ⟨hne, hall⟩ | ⟨a, b, heq, hane, hbne, haw, hbw⟩
      · left
        have hc : s.data.contains '.' = false := contains_dot_word _ hall
        rw [if_pos ht, hc] at hout
        simp at hout
        exact ⟨hne, hall, hout.symm⟩
      · right
        refine ⟨a, b, heq, hane, hbne, haw, hbw, ?_⟩
        have hc : s.data.contains '.' = true := by rw [heq]; exact contains_dot_append a b
        rw [if_pos ht, if_pos hc] at hout
        simp at hout
        rw [← hout]
        exact hdotted a b heq haw
    · rw [if_neg ht] at hout
      simp at hout

theorem str_assoc (x y z : String) : x ++ y ++ z = x ++ (y ++ z) := by
  apply String.ext
  simp [data_append]

theorem str_empty (x : String) : x ++ "" = x := by
  apply String.ext
  simp [data_append, show ("" : String).data = [] from rfl]

/-! ### C9: HAVING is emitted only under GROUP -/

/-- C9: `whereClause` consults `HAVING` only inside the `GROUP` guard, so
on a where object with no `GROUP` entry the output (and the parameter
state) is identical whether or not a `HAVING` entry is present — the
`HAVING` condition is silently dropped, with no error. -/
theorem havingDroppedWithoutGroup (ctx : Ctx) (st : St) (cond : CondTree)
    (hav : Option HavingVal) (ord : Option OrderVal) (lim : Option LimitVal) :
    whereClause ctx (.spec ⟨cond, none, hav, ord, lim⟩) st =
      whereClause ctx (.spec ⟨cond, none, none, ord, lim⟩) st := rfl

/-! ### C8: the LIMIT clause -/

/-- C8 counterexample: the claim says an integer `LIMIT n` entry always
assembles to `LIMIT n`, but `if (where.LIMIT)` treats the integer `0` as
falsy: `{LIMIT: 0}` yields no LIMIT clause at all. -/
theorem limitZeroOmitted_cex :
    whereClause ⟨"", JVal.toStr⟩ (.spec { limit := some (.num 0) }) ⟨[], 0⟩ =
      .ok ("", ⟨[], 0⟩) ∧
    whereClause ⟨"", JVal.toStr⟩ (.spec { limit := some (.num 0) }) ⟨[], 0⟩ ≠
      .ok (" LIMIT 0", ⟨[], 0⟩) := by
  refine ⟨rfl, fun h => ?_⟩
  rw [show whereClause ⟨"", JVal.toStr⟩ (.spec { limit := some (.num 0) }) ⟨[], 0⟩ =
    .ok ("", ⟨[], 0⟩) from rfl] at h
  simp only [Except.ok.injEq, Prod.mk.injEq] at h
  exact absurd h.1 (by decide)

/-- C8 (amended): a `LIMIT` entry holding a nonzero integer `n` appends
`LIMIT n` to the assembled clause (`LIMIT: 0` is falsy and omitted), and a
2-element list `[offset, count]` appends `LIMIT count OFFSET offset` —
e.g. `LIMIT: [20, 10]` gives `LIMIT 10 OFFSET 20`. -/
theorem limitClauseAssembly (ctx : Ctx) (st : St) (cond : CondTree)
    (g : Option GroupVal) (hav : Option HavingVal) (ord : Option OrderVal) :
    (∀ n : Int, n ≠ 0 →
      whereClause ctx (.spec ⟨cond, g, hav, ord, some (.num n)⟩) st =
        (whereClause ctx (.spec ⟨cond, g, hav, ord, none⟩) st).map
          (fun r => (r.1 ++ (" LIMIT " ++ toString n), r.2))) ∧
    (∀ off cnt : Int,
      whereClause ctx (.spec ⟨cond, g, hav, ord, some (.arr [off, cnt])⟩) st =
        (whereClause ctx (.spec ⟨cond, g, hav, ord, none⟩) st).map
          (fun r => (r.1 ++ (" LIMIT " ++ toString cnt ++ " OFFSET " ++ toString off), r.2))) := by
  have hpre : ∀ lim lim2 : Option LimitVal,
      whereClausePre ctx ⟨cond, g, hav, ord, lim⟩ st =
        whereClausePre ctx ⟨cond, g, hav, ord, lim2⟩ st := fun _ _ => rfl
  constructor
  · intro n hn
    simp only [whereClause]
    rw [hpre (some (.num n)) none]
    cases hres : whereClausePre ctx ⟨cond, g, hav, ord, none⟩ st with
    | error e => rfl
    | ok r =>
      have ht : limitTruthy (.num n) = true := by simp [limitTruthy, hn]
      simp only [Except.map, limitClause, str_empty]
      rw [if_pos ht]
  · intro off cnt
    simp only [whereClause]
    rw [hpre (some (.arr [off, cnt])) none]
    cases hres : whereClausePre ctx ⟨cond, g, hav, ord, none⟩ st with
    | error e => rfl
    | ok r =>
      have ht : limitTruthy (.arr [off, cnt]) = true := rfl
      simp only [Except.map, limitClause, str_empty, str_assoc]
      rw [if_pos ht]

/-! ### C10: `get` prunes the caller's LIMIT entry -/

/-- C10 counterexample: the claim says `get` always deletes the `LIMIT`
key from the caller's `where` object, but the deletion is guarded by the
truthiness of `where.LIMIT`: with `LIMIT: 0` the key survives the call. -/
theorem getKeepsFalsyLimit_cex :
    (getPrune Option.none (some { limit := some (.num 0) })).2 =
      some ({ limit := some (.num 0) } : WSpec) ∧
    (getPrune Option.none (some { limit := some (.num 0) })).2 ≠
      some ({ limit := none } : WSpec) := by
  refine ⟨rfl, fun h => ?_⟩
  rw [show (getPrune Option.none (some { limit := some (.num 0) })).2 =
    some ({ limit := some (.num 0) } : WSpec) from rfl] at h
  simp only [Option.some.injEq, WSpec.mk.injEq] at h
  exact absurd h.2.2.2.2 (by simp)

/-- C10 (amended): `get` mutates the caller-supplied argument in place —
with a `where` argument it deletes `where`'s `LIMIT` entry (leaving
`columns` untouched), and with no `where` it deletes `columns`'s `LIMIT`
entry — but only when the `LIMIT` value is truthy; a falsy `LIMIT` (such
as `0`) is left in place. -/
theorem getPrunesTruthyLimit (columns : Option WSpec) (c w : WSpec) :
    ((getPrune columns (some w)).1 = columns) ∧
    (hasTruthyLimit w = true → (getPrune columns (some w)).2 = some { w with limit := none }) ∧
    (hasTruthyLimit w = false → (getPrune columns (some w)).2 = some w) ∧
    (hasTruthyLimit c = true →
      getPrune (some c) Option.none = (some { c with limit := none }, Option.none)) ∧
    (hasTruthyLimit c = false → getPrune (some c) Option.none = (some c, Option.none)) := by
  refine ⟨rfl, fun h => by simp [getPrune, h], fun h => by simp [getPrune, h],
    fun h => by simp [getPrune, h], fun h => by simp [getPrune, h]⟩

/-! ### Parameter-map lemmas: fresh keys append -/

theorem pmInsert_fresh (m : ParamMap) (k : PKey) (v : BindVal)
    (h : ∀ e ∈ m, e.1 ≠ k) : pmInsert m k v = m ++ [(k, v)] := by
  unfold pmInsert
  rw [if_neg]
  intro hany
  obtain ⟨e, he, heq⟩ := List.any_eq_true.mp hany
  exact h e he (beq_iff_eq.mp heq)

theorem genFresh_notin (m : ParamMap) (g : Nat) (hf : genFresh m g = true)
    (g2 : Nat) (suf : Suffix) (hg : g ≤ g2) : ∀ e ∈ m, e.1 ≠ PKey.gen g2 suf := by
  intro e he heq
  have hall := List.all_eq_true.mp hf e he
  rw [heq] at hall
  simp only [decide_eq_true_eq] at hall
  omega

theorem foldl_pmInsert_append (ps : List (PKey × BindVal)) :
    ∀ m : ParamMap, (∀ p ∈ ps, ∀ e ∈ m, e.1 ≠ p.1) →
      ps.Pairwise (fun a b => a.1 ≠ b.1) →
      ps.foldl (fun acc p => pmInsert acc p.1 p.2) m = m ++ ps := by
  induction ps with
  | nil => intro m _ _; simp
  | cons p ps ih =>
    intro m hnot hpw
    simp only [List.foldl_cons]
    rw [pmInsert_fresh m p.1 p.2 (fun e he => hnot p (List.mem_cons_self _ _) e he)]
    rw [ih (m ++ [p]) ?_ (List.Pairwise.sublist (List.sublist_cons_self p ps) hpw)]
    · simp
    · intro p2 hp2 e he
      rcases List.mem_append.mp he with he1 | he2
      · exact hnot p2 (List.mem_cons_of_mem _ hp2) e he1
      · rw [List.mem_singleton.mp he2]
        exact (List.pairwise_cons.mp hpw).1 p2 hp2

theorem enum_fst_pairwise (l : List JVal) :
    l.enum.Pairwise (fun a b => a.1 ≠ b.1) := by
  have h1 : (l.enum.map Prod.fst).Pairwise (fun a b => a ≠ b) := by
    rw [List.enum_map_fst]
    exact List.nodup_range _
  rwa [List.pairwise_map] at h1

theorem enum_keys_pairwise (g : Nat) (l : List JVal) :
    (l.enum.map (fun e => (PKey.gen g (.inIdx e.1), BindVal.j e.2))).Pairwise
      (fun a b => a.1 ≠ b.1) := by
  rw [List.pairwise_map]
  refine (enum_fst_pairwise l).imp ?_
  intro a b hab heq
  apply hab
  injection heq with hg hsuf
  injection hsuf with hi

theorem intercalate_nil (sep : String) : String.intercalate sep [] = "" := rfl

theorem intercalate_single (sep x : String) : String.intercalate sep [x] = x := rfl

theorem ok_bind {α β : Type} (a : α) (f : α → Except MErr β) :
    (do
      let y ← (Except.ok a : Except MErr α)
      f y) = f a := rfl

/-- A one-entry tree with a non-logical key compiles to its single
fragment (or to the empty expression when the entry pushes nothing). -/
theorem dataImplode_single (pfx key : String) (v : CondVal) (st : St) (conj : String)
    (hlog : logicalRel key = none) :
    dataImplode pfx [(key, v)] st conj =
      match condEntryPlain pfx key v st with
      | .error e => .error e
      | .ok (some frag, st1) => .ok (frag, st1)
      | .ok (none, st1) => .ok ("", st1) := by
  unfold dataImplode condGoT
  rw [hlog]
  cases h : condEntryPlain pfx key v st with
  | error e => simp
  | ok fr =>
    obtain ⟨frag, st1⟩ := fr
    cases frag with
    | none => simp [condGoT, intercalate_nil]
    | some f => simp [condGoT, intercalate_single]

/-! ### C3: the range operators -/

/-- C3 counterexample: the claim says a `<>`/`><` entry whose value is not
a 2-element list fails with `MalformedCondition`; in fact a non-list value
is silently skipped — the compile succeeds with an empty expression (and a
consumed guid), and no `MalformedCondition` error exists in the code. -/
theorem rangeScalarSilent_cex :
    dataImplode "" [("age[<>]", .num 5)] ⟨[], 0⟩ " AND" = .ok ("", ⟨[], 1⟩) ∧
    dataImplode "" [("age[<>]", .list [.num 1, .num 2, .num 3])] ⟨[], 0⟩ " AND" =
      .ok ("(\"age\" BETWEEN :medoo_0_parama AND :medoo_0_paramb)",
        ⟨[(.gen 0 .a, .j (.num 1)), (.gen 0 .b, .j (.num 2))], 1⟩) := ⟨rfl, rfl⟩

/-- C3 (amended): a `<>`/`><` entry whose value is a list of *any* length
compiles to `BETWEEN :a AND :b` (`NOT BETWEEN` for `><`), binding the
first two elements (missing elements bind as JS `undefined`); any other
value is silently skipped — nothing is emitted and no error is raised.
No `MalformedCondition` check exists. -/
theorem rangeOperatorAssembly (pfx key c q : String) (st : St) (op : String)
    (hop : op = "<>" ∨ op = "><")
    (hlog : logicalRel key = none)
    (hk : parseCondKey key = some ⟨c, some op⟩)
    (hq : resolveColumn pfx ⟨c, some op⟩ = .ok q) :
    (∀ l : List JVal, (isIntKey key && (parseColCol (CondVal.list l).toStr).isSome) = false →
      dataImplode pfx [(key, .list l)] st " AND" =
        .ok ("(" ++ q ++ (if op = "><" then " NOT" else "") ++ " BETWEEN " ++
              (PKey.gen st.guid .a).render ++ " AND " ++ (PKey.gen st.guid .b).render ++ ")",
             ⟨pmInsert (pmInsert st.map (.gen st.guid .a) (.j ((l[0]?).getD .undefined)))
                (.gen st.guid .b) (.j ((l[1]?).getD .undefined)), st.guid + 1⟩)) ∧
    (∀ v : CondVal, (match v with | .list _ => False | _ => True) →
      (isIntKey key && (parseColCol v.toStr).isSome) = false →
      dataImplode pfx [(key, v)] st " AND" = .ok ("", ⟨st.map, st.guid + 1⟩)) := by
  have hrange : ∀ v : CondVal, (isIntKey key && (parseColCol v.toStr).isSome) = false →
      condEntryPlain pfx key v st =
        match v with
        | .list l =>
          .ok (some ("(" ++ (q ++ (if op = "><" then " NOT" else "")) ++ " BETWEEN " ++
                (PKey.gen st.guid .a).render ++ " AND " ++ (PKey.gen st.guid .b).render ++ ")"),
               ⟨pmInsert (pmInsert st.map (.gen st.guid .a) (.j ((l[0]?).getD .undefined)))
                  (.gen st.guid .b) (.j ((l[1]?).getD .undefined)), st.guid + 1⟩)
        | _ => .ok (none, ⟨st.map, st.guid + 1⟩) := by
    intro v hcc
    rcases hop with h | h <;> subst h <;> cases v <;>
      simp only [condEntryPlain, hcc, hk, hq, ok_bind, Bool.false_eq_true, if_false] <;> rfl
  constructor
  · intro l hcc
    rw [dataImplode_single pfx key (.list l) st " AND" hlog, hrange (.list l) hcc]
    simp [str_assoc]
  · intro v hv hcc
    rw [dataImplode_single pfx key v st " AND" hlog, hrange v hcc]
    cases v <;> simp_all

/-- C3 witness. -/
theorem rangeOperatorAssembly_witness :
    dataImplode "" [("age[<>]", .list [.num 18, .num 65])] ⟨[], 0⟩ " AND" =
      .ok ("(\"age\" BETWEEN :medoo_0_parama AND :medoo_0_paramb)",
        ⟨[(.gen 0 .a, .j (.num 18)), (.gen 0 .b, .j (.num 65))], 1⟩) := by
  have h := (rangeOperatorAssembly "" "age[<>]" "age" "\"age\"" ⟨[], 0⟩ "<>"
    (Or.inl rfl) rfl rfl rfl).1 [.num 18, .num 65] rfl
  exact h.trans rfl

/-! ### C6: the negation operator -/

/-- C6 counterexample: the claim says any non-null, non-list, non-Raw
scalar under `!` binds *the scalar itself*; a boolean is bound through
`typeMap`, so `{flag[!]: true}` binds the string `'1'`, not `true`. -/
theorem negationBoolCoerced_cex :
    dataImplode "" [("flag[!]", .bool true)] ⟨[], 0⟩ " AND" =
      .ok ("\"flag\" != :medoo_0_param", ⟨[(.gen 0 .plain, .j (.str "1"))], 1⟩) ∧
    (BindVal.j (.str "1") ≠ BindVal.j (.bool true)) := by
  refine ⟨rfl, fun h => ?_⟩
  injection h with h2
  exact absurd h2 (by decide)

/-- C6 (amended): under the `!` operator, `null` compiles to
`IS NOT NULL`; a list compiles to `NOT IN (...)` with exactly one
generated parameter per element bound to that element; a `Raw` compiles to
`!= <spliced text>`; a number or string compiles to `!= :param` with the
scalar bound unchanged, while a boolean is bound through `typeMap` as
`'1'`/`'0'`. -/
theorem negationOperatorAssembly (pfx key c q : String) (st : St)
    (hlog : logicalRel key = none)
    (hk : parseCondKey key = some ⟨c, some "!"⟩)
    (hq : resolveColumn pfx ⟨c, some "!"⟩ = .ok q)
    (hf : genFresh st.map st.guid = true) :
    ((isIntKey key && (parseColCol CondVal.jnull.toStr).isSome) = false →
      dataImplode pfx [(key, .jnull)] st " AND" =
        .ok (q ++ " IS NOT NULL", ⟨st.map, st.guid + 1⟩)) ∧
    (∀ l : List JVal, (isIntKey key && (parseColCol (CondVal.list l).toStr).isSome) = false →
      dataImplode pfx [(key, .list l)] st " AND" =
        .ok (q ++ " NOT IN (" ++
              String.intercalate ", " (((List.range l.length).map
                (fun i => PKey.gen st.guid (.inIdx i))).map PKey.render) ++ ")",
             ⟨st.map ++ l.enum.map (fun e => (PKey.gen st.guid (.inIdx e.1), BindVal.j e.2)),
              st.guid + 1⟩)) ∧
    (∀ r : RawF, ∀ spliced : String, ∀ m2 : ParamMap,
      buildRaw pfx r st.map = .ok (spliced, m2) →
      (isIntKey key && (parseColCol (CondVal.raw r).toStr).isSome) = false →
      dataImplode pfx [(key, .raw r)] st " AND" =
        .ok (q ++ " != " ++ spliced, ⟨m2, st.guid + 1⟩)) ∧
    (∀ v : CondVal, (match v with
        | .num _ | .str _ | .bool _ => True
        | _ => False) →
      (isIntKey key && (parseColCol v.toStr).isSome) = false →
      dataImplode pfx [(key, v)] st " AND" =
        .ok (q ++ " != " ++ (PKey.gen st.guid .plain).render,
             ⟨st.map ++ [(PKey.gen st.guid .plain, typeMapBind v)], st.guid + 1⟩)) ∧
    (typeMapBind (.bool true) = .j (.str "1") ∧ typeMapBind (.bool false) = .j (.str "0") ∧
      (∀ n : Int, typeMapBind (.num n) = .j (.num n)) ∧
      (∀ s2 : String, typeMapBind (.str s2) = .j (.str s2))) := by
  refine ⟨?_, ?_, ?_, ?_, rfl, rfl, fun _ => rfl, fun _ => rfl⟩
  · intro hcc
    rw [dataImplode_single pfx key .jnull st " AND" hlog]
    simp only [condEntryPlain, hcc, Bool.false_eq_true, if_false, hk, hq, ok_bind]
    rfl
  · intro l hcc
    rw [dataImplode_single pfx key (.list l) st " AND" hlog]
    have hfold : l.enum.foldl
        (fun m e => pmInsert m (PKey.gen st.guid (.inIdx e.1)) (.j e.2)) st.map =
        st.map ++ l.enum.map (fun e => (PKey.gen st.guid (.inIdx e.1), BindVal.j e.2)) := by
      have h := foldl_pmInsert_append
        (l.enum.map (fun e => (PKey.gen st.guid (.inIdx e.1), BindVal.j e.2))) st.map
        (fun p hp e he => by
          obtain ⟨x, hx, hxe⟩ := List.mem_map.mp hp
          rw [← hxe]
          exact genFresh_notin st.map st.guid hf st.guid _ (le_refl _) e he)
        (enum_keys_pairwise st.guid l)
      rw [List.foldl_map] at h
      exact h
    simp only [condEntryPlain, hcc, Bool.false_eq_true, if_false, hk, hq, ok_bind]
    rw [hfold]
    rfl
  · intro r spliced m2 hraw hcc
    rw [dataImplode_single pfx key (.raw r) st " AND" hlog]
    simp only [condEntryPlain, hcc, Bool.false_eq_true, if_false, hk, hq, ok_bind]
    rw [hraw]
    simp only [ok_bind]
    rfl
  · intro v hv hcc
    rw [dataImplode_single pfx key v st " AND" hlog]
    have hone : ∀ b : BindVal, pmInsert st.map (PKey.gen st.guid .plain) b =
        st.map ++ [(PKey.gen st.guid .plain, b)] :=
      fun b => pmInsert_fresh _ _ _ (genFresh_notin st.map st.guid hf st.guid _ (le_refl _))
    cases v <;>
      first
      | exact hv.elim
      | (simp only [condEntryPlain, hcc, Bool.false_eq_true, if_false, hk, hq, ok_bind,
          bindSt, hone]
         rfl)

/-- C6 witness: the spec's own example `{'role[!]': ['admin','banned']}`. -/
theorem negationOperatorAssembly_witness :
    dataImplode "" [("role[!]", .list [.str "admin", .str "banned"])] ⟨[], 0⟩ " AND" =
      .ok ("\"role\" NOT IN (:medoo_0_param0_i, :medoo_0_param1_i)",
        ⟨[(.gen 0 (.inIdx 0), .j (.str "admin")), (.gen 0 (.inIdx 1), .j (.str "banned"))], 1⟩) := by
  have h := ((negationOperatorAssembly "" "role[!]" "role" "\"role\"" ⟨[], 0⟩
    rfl rfl rfl rfl).2.1) [.str "admin", .str "banned"] rfl
  exact h.trans rfl

/-! ### C2: the wildcard-under-join check -/

/-- Inside the entry loop over an array spec, a string entry containing
`*` aborts the whole compile with `ambiguousWildcard` (under a join), as
soon as the loop reaches it. -/
theorem colArrGo_wildcard (pfx s : String) (post : List CVal)
    (hs : s.data.contains '*' = true) :
    ∀ pre : List CVal, ∀ m : ParamMap, ∀ frags : List String, ∀ rest2 : List CVal,
      ∀ m2 : ParamMap,
      colArrGo pfx true pre m = .ok (frags, rest2, m2) →
      colArrGo pfx true (pre ++ CVal.j (.str s) :: post) m = .error .ambiguousWildcard := by
  have hstr : colStrEntry pfx true s = .error .ambiguousWildcard := by
    simp only [colStrEntry, Bool.true_and, hs]
    rfl
  intro pre
  induction pre with
  | nil =>
    intro m frags rest2 m2 _
    simp [colArrGo, hstr]
  | cons v pre ih =>
    intro m frags rest2 m2 hok
    cases v
    case arr l =>
      simp only [colArrGo] at hok
      cases hcp : columnPush pfx (.arr l) m false true with
      | error e => simp [hcp] at hok
      | ok t =>
        obtain ⟨frag, v2, mv⟩ := t
        simp only [hcp] at hok
        cases hrest : colArrGo pfx true pre mv with
        | error e => simp [hrest] at hok
        | ok t2 =>
          obtain ⟨frags2, rest2b, m3⟩ := t2
          rw [List.cons_append]
          simp [colArrGo, hcp, ih mv frags2 rest2b m3 hrest]
    case j jv =>
      cases jv
      case str t =>
        simp only [colArrGo] at hok
        cases hse : colStrEntry pfx true t with
        | error e => simp [hse] at hok
        | ok p =>
          obtain ⟨frag, v2⟩ := p
          simp only [hse] at hok
          cases hrest : colArrGo pfx true pre m with
          | error e => simp [hrest] at hok
          | ok t2 =>
            obtain ⟨frags2, rest2b, m3⟩ := t2
            rw [List.cons_append]
            simp [colArrGo, hse, ih m frags2 rest2b m3 hrest]
      all_goals
        simp only [colArrGo] at hok
        cases hrest : colArrGo pfx true pre m with
        | error e => simp [hrest] at hok
        | ok t2 =>
          obtain ⟨frags2, rest2b, m3⟩ := t2
          rw [List.cons_append]
          simp [colArrGo, ih m frags2 rest2b m3 hrest]
    all_goals
      simp only [colArrGo] at hok
      cases hrest : colArrGo pfx true pre m with
      | error e => simp [hrest] at hok
      | ok t2 =>
        obtain ⟨frags2, rest2b, m3⟩ := t2
        rw [List.cons_append]
        simp [colArrGo, ih m frags2 rest2b m3 hrest]

/-- C2 counterexample: the spec consisting of the single string `*` under
a join succeeds — `columnPush` returns `*` before the wildcard check runs
— though the claim says it must fail with `ambiguousWildcard`. -/
theorem wildcardJoinPasses_cex :
    columnPush "" (.j (.str "*")) [] true true = .ok ("*", .j (.str "*"), []) := rfl

/-- C2 (amended): under a join, a single-string spec containing `*` fails
with `ambiguousWildcard` *except* for the exact string `*`, which is
returned verbatim before the check; inside an array spec every string
entry containing `*` (the bare `*` included) aborts with
`ambiguousWildcard` once the loop reaches it. -/
theorem ambiguousWildcardCheck (pfx s : String) (m : ParamMap) (root : Bool)
    (hs : s.data.contains '*' = true) :
    (s ≠ "*" → columnPush pfx (.j (.str s)) m root true = .error .ambiguousWildcard) ∧
    columnPush pfx (.j (.str "*")) m root true = .ok ("*", .j (.str "*"), m) ∧
    (∀ pre post : List CVal, ∀ frags : List String, ∀ rest2 : List CVal, ∀ m2 : ParamMap,
      colArrGo pfx true pre m = .ok (frags, rest2, m2) →
      columnPush pfx (.arr (pre ++ CVal.j (.str s) :: post)) m root true =
        .error .ambiguousWildcard) := by
  have hstr : colStrEntry pfx true s = .error .ambiguousWildcard := by
    simp only [colStrEntry, Bool.true_and, hs]
    rfl
  refine ⟨?_, rfl, ?_⟩
  · intro hne
    simp [columnPush, hne, hstr]
  · intro pre post frags rest2 m2 hok
    have h := colArrGo_wildcard pfx s post hs pre m frags rest2 m2 hok
    simp [columnPush, h]

/-- C2 witness. -/
theorem ambiguousWildcardCheck_witness :
    ("t.*" : String) ≠ "*" ∧
    columnPush "" (.j (.str "t.*")) [] true true = .error .ambiguousWildcard ∧
    columnPush "" (.arr [.j (.str "name"), .j (.str "*")]) [] true true =
      .error .ambiguousWildcard := by
  refine ⟨by decide, ?_, ?_⟩
  · exact (ambiguousWildcardCheck "" "t.*" [] true rfl).1 (by decide)
  · exact (ambiguousWildcardCheck "" "*" [] true rfl).2.2
      [.j (.str "name")] [] ["\"name\""] [.j (.str "name")] [] rfl

/-! ### C7: join direction tags -/

/-- C7 counterexample: a join key with no identifier character and no
well-formed direction tag gives a `null` regex match, and the code reads
`match.groups` off it — a TypeError, not a silent skip. -/
theorem joinNullMatchCrashes_cex :
    buildJoin "" "users" [("-", .str "uid")] = .error .typeError := rfl

/-- C7 (amended): a key whose direction tag parses maps the tag through
`{>: LEFT, <: RIGHT, <>: FULL, ><: INNER}` and assembles the join clause;
a key that matches the join regex *without* a tag is silently skipped;
but a key on which the regex match is `null` crashes (TypeError) instead
of being skipped. -/
theorem joinDirectionAssembly (pfx table key tag tbl : String)
    (rel : JRel) (rest : List (String × JRel)) (relStr tq frags : String)
    (htag : tag = ">" ∨ tag = "<" ∨ tag = "<>" ∨ tag = "><") :
    joinDirWord tag = (if tag = ">" then "LEFT" else if tag = "<" then "RIGHT"
        else if tag = "<>" then "FULL" else "INNER") ∧
    (joinKeyMatch key = some (some tag, tbl, none) →
      joinRelStr pfx table tbl rel = .ok relStr →
      tableQuote pfx tbl = .ok tq →
      buildJoin pfx table rest = .ok frags →
      buildJoin pfx table ((key, rel) :: rest) =
        .ok (joinDirWord tag ++ " JOIN " ++ (tq ++ " ") ++ relStr ++
             (if frags = "" then "" else " " ++ frags))) ∧
    (∀ tbl2 : String, ∀ al2 : Option String,
      joinKeyMatch key = some (none, tbl2, al2) →
      buildJoin pfx table ((key, rel) :: rest) = buildJoin pfx table rest) := by
  refine ⟨?_, ?_, ?_⟩
  · rcases htag with h | h | h | h <;> subst h <;> rfl
  · intro hk hrel htq hrest
    simp only [buildJoin, hk, Option.getD, hrel, ok_bind, htq, hrest]
  · intro tbl2 al2 hk2
    simp only [buildJoin, hk2]

/-- C7 witness. -/
theorem joinDirectionAssembly_witness :
    buildJoin "" "user" [("[>]users", JRel.obj [("uid", "id")])] =
      .ok ("LEFT JOIN \"users\" ON \"user\".\"uid\" = \"users\".\"id\"") := by
  have h := (joinDirectionAssembly "" "user" "[>]users" ">" "users"
    (.obj [("uid", "id")]) [] "ON \"user\".\"uid\" = \"users\".\"id\"" "\"users\"" ""
    (Or.inl rfl)).2.1 rfl rfl rfl rfl
  exact h.trans (by rfl)

/-! ### C4: JSON coercion fallback and null propagation in `dataMap` -/

/-- A one-entry columns object under an integer key maps the row to the
single field produced by `dataMapField`. -/
theorem dataMapSingleEntry (js : JsCtx) (data : Row) (cmap : ColMap) (k s ck : String)
    (rv : RVal)
    (hik : isIntKey k = true)
    (hfield : dataMapField js data cmap false s = some (ck, rv)) :
    dataMapFields js data cmap (.obj [(k, .j (.str s))]) = [(ck, rv)] := by
  show dataMapEntries (dataMapGo js data cmap 1) js data cmap [(k, .j (.str s))] [] = _
  simp [dataMapEntries, CVal.isRawB, CVal.propKey, JVal.toStr, hik, hfield, rInsert]

/-- C4: a field declared `Object`/`JSON` goes through `JSON.parse` and, on
a parse failure, keeps the raw source value (no error: the mapper is a
total function); a `null` source value short-circuits every coercion and
lands as `null` for every declared type. -/
theorem jsonCoercionFallback (js : JsCtx) (data : Row) (cmap : ColMap)
    (k s ck ty : String)
    (hik : isIntKey k = true)
    (hck : cmapGet cmap s = some (ck, ty)) :
    ((ty = "Object" ∨ ty = "JSON") → rowGet data ck ≠ .jnull →
      dataMapFields js data cmap (.obj [(k, .j (.str s))]) =
        [(ck, match js.jsonParseJ (rowGet data ck) with
              | some rv => rv
              | none => .j (rowGet data ck))]) ∧
    (rowGet data ck = .jnull →
      dataMapFields js data cmap (.obj [(k, .j (.str s))]) = [(ck, .j .jnull)]) := by
  constructor
  · intro hty hnn
    refine dataMapSingleEntry js data cmap k s ck _ hik ?_
    rcases hty with h | h <;> subst h <;> simp [dataMapField, hck, hnn]
  · intro hnull
    refine dataMapSingleEntry js data cmap k s ck _ hik ?_
    by_cases hty0 : ty = ""
    · subst hty0
      simp [dataMapField, hck, hnull]
    · simp [dataMapField, hck, hnull, hty0]

/-- C4 witness: the spec's own example, a malformed `settings[JSON]` value
`"\x7bbad"` maps back to the original string. -/
theorem jsonCoercionFallback_witness :
    dataMapFields ⟨fun v => v, fun v => v, fun _ => none⟩
      [("settings", .str "\x7bbad")] [("settings[JSON]", "settings", "JSON")]
      (.obj [("0", .j (.str "settings[JSON]"))]) = [("settings", .j (.str "\x7bbad"))] := by
  have h := (jsonCoercionFallback ⟨fun v => v, fun v => v, fun _ => none⟩
    [("settings", .str "\x7bbad")] [("settings[JSON]", "settings", "JSON")]
    "0" "settings[JSON]" "settings" "JSON" rfl rfl).1 (Or.inr rfl) (by decide)
  exact h.trans rfl

/-! ### C1: parameterisation of plain condition trees -/

/-- A string without `[` cannot match the column-to-column regex. -/
theorem parseColCol_go_noBracket : ∀ cs : List Char, ('[' : Char) ∉ cs →
    parseColCol.go cs = none := by
  intro cs
  induction cs with
  | nil => intro _; rfl
  | cons c rest ih =>
    intro h
    have hrest : ('[' : Char) ∉ rest := fun hm => h (List.mem_cons_of_mem c hm)
    simp only [parseColCol.go]
    by_cases hc : dotWord c = true
    · rw [if_pos hc]
      split
      · rename_i cs2 heq
        exfalso
        have hmem : ('[' : Char) ∈ (c :: rest).dropWhile dotWord := by
          rw [heq]
          exact List.mem_cons_self _ _
        exact h (List.dropWhile_subset dotWord hmem)
      · exact ih hrest
    · rw [if_neg hc]
      exact ih hrest

theorem parseColCol_noBracket (s : String) (h : ('[' : Char) ∉ s.data) :
    parseColCol s = none := parseColCol_go_noBracket s.data h

/-- The guard of the positional column-to-column branch is off for any
value whose string form has no `[`. -/
theorem guard_of_noBracket (key : String) (v : CondVal)
    (h : ('[' : Char) ∉ v.toStr.data) :
    (isIntKey key && (parseColCol v.toStr).isSome) = false := by
  rw [parseColCol_noBracket _ h]
  simp

theorem intercalate_go_noBracket : ∀ (as : List String) (acc : String),
    ('[' : Char) ∉ acc.data → (∀ x ∈ as, ('[' : Char) ∉ x.data) →
    ('[' : Char) ∉ (String.intercalate.go acc "," as).data := by
  intro as
  induction as with
  | nil =>
    intro acc h _
    exact h
  | cons a as ih =>
    intro acc h hall
    show ('[' : Char) ∉ (String.intercalate.go (acc ++ "," ++ a) "," as).data
    refine ih _ ?_ (fun x hx => hall x (List.mem_cons_of_mem a hx))
    intro hm
    rw [data_append, data_append] at hm
    rcases List.mem_append.mp hm with hm1 | hm2
    · rcases List.mem_append.mp hm1 with hm3 | hm4
      · exact h hm3
      · exact absurd hm4 (by decide)
    · exact hall a (List.mem_cons_self _ _) hm2

/-- The string form of a zero-masked list has no `[`. -/
theorem maskedList_noBracket (l : List JVal) :
    ('[' : Char) ∉ (CondVal.list (l.map (fun _ => JVal.num 0))).toStr.data := by
  show ('[' : Char) ∉ (String.intercalate ","
    ((l.map (fun _ => JVal.num 0)).map JVal.joinStr)).data
  rw [List.map_map]
  cases l with
  | nil => decide
  | cons x xs =>
    show ('[' : Char) ∉ (String.intercalate.go "0" "," (xs.map _)).data
    refine intercalate_go_noBracket _ _ (by decide) ?_
    intro y hy
    obtain ⟨z, _, hz⟩ := List.mem_map.mp hy
    rw [← hz]
    show ('[' : Char) ∉ (JVal.joinStr (JVal.num 0)).data
    decide

/-- `genFresh` is monotone in the bound and extends along freshly-keyed
appends. -/
theorem genFresh_append_gen (m : ParamMap) (g : Nat) (hf : genFresh m g = true)
    (d : List (PKey × BindVal)) (hd : ∀ p ∈ d, ∃ suf, p.1 = PKey.gen g suf) :
    genFresh (m ++ d) (g + 1) = true := by
  rw [genFresh, List.all_eq_true]
  intro e he
  rcases List.mem_append.mp he with h1 | h2
  · have := List.all_eq_true.mp hf e h1
    revert this
    cases e.1 <;> simp <;> omega
  · obtain ⟨suf, hsuf⟩ := hd e h2
    rw [hsuf]
    simp

/-- The column resolution of a plain entry succeeds exactly when
`plainEntry`'s column conjunct holds. -/
theorem resolveColumn_ok (pfx : String) (km : KeyMatch)
    (h : (if km.column.data.contains '(' = true ∧ km.column.data.contains ')' = true then true
          else exOk (columnQuote pfx km.column)) = true) :
    ∃ q, resolveColumn pfx km = .ok q := by
  unfold resolveColumn
  by_cases hb : km.column.data.contains '(' = true ∧ km.column.data.contains ')' = true
  · rw [if_pos (show (km.column.data.contains '(' && km.column.data.contains ')') = true by
        rw [Bool.and_eq_true]; exact hb)]
    exact ⟨_, rfl⟩
  · rw [if_neg (show ¬((km.column.data.contains '(' && km.column.data.contains ')') = true) by
        rw [Bool.and_eq_true]; exact hb)]
    rw [if_neg hb] at h
    cases hq : columnQuote pfx km.column with
    | ok q => exact ⟨q, rfl⟩
    | error e =>
      rw [hq] at h
      exact absurd h (by simp [exOk])

theorem enum_vals_j (g : Nat) (l : List JVal) :
    ((l.enum.map (fun e => (PKey.gen g (.inIdx e.1), BindVal.j e.2))).map
      (fun p => p.2)) = l.map BindVal.j := by
  rw [List.map_map]
  rw [show ((fun p : PKey × BindVal => p.2) ∘
      (fun e : Nat × JVal => (PKey.gen g (.inIdx e.1), BindVal.j e.2))) =
      (BindVal.j ∘ Prod.snd) from rfl]
  rw [← List.map_map, List.enum_map_snd]

/-- Packaging of one plain entry's behaviour: the computed results on the
real and on the masked value (same fragment, appended fresh bindings)
give the entry-level parameterisation statement. -/
theorem plainBundle (pfx key : String) (v : CondVal) (st ms : St)
    (F : String) (dR dM : List (PKey × BindVal))
    (hf : genFresh st.map st.guid = true) (hfm : genFresh ms.map ms.guid = true)
    (hreal : condEntryPlain pfx key v st = .ok (some F, ⟨st.map ++ dR, st.guid + 1⟩))
    (hvals : dR.map (fun p => p.2) = (leavesE v).map BindVal.j)
    (hkR : ∀ p ∈ dR, ∃ suf, p.1 = PKey.gen st.guid suf)
    (hmask : condEntryPlain pfx key (maskE v) ms =
      .ok (some F, ⟨ms.map ++ dM, ms.guid + 1⟩))
    (hkM : ∀ p ∈ dM, ∃ suf, p.1 = PKey.gen ms.guid suf) :
    ∃ frag st1 ms1,
      condEntryPlain pfx key v st = .ok (some frag, st1) ∧
      (∃ d, st1.map = st.map ++ d ∧
        d.map (fun p => p.2) = (leavesE v).map BindVal.j) ∧
      st1.guid = st.guid + 1 ∧
      genFresh st1.map st1.guid = true ∧
      condEntryPlain pfx key (maskE v) ms = .ok (some frag, ms1) ∧
      ms1.guid = ms.guid + 1 ∧
      genFresh ms1.map ms1.guid = true :=
  ⟨F, ⟨st.map ++ dR, st.guid + 1⟩, ⟨ms.map ++ dM, ms.guid + 1⟩,
   hreal, ⟨dR, rfl, hvals⟩, rfl,
   genFresh_append_gen st.map st.guid hf dR hkR,
   hmask, rfl,
   genFresh_append_gen ms.map ms.guid hfm dM hkM⟩

/-- Any operator surviving `plainOp` under `some` is one of the six
parameterising operators. -/
theorem plainOp_some_ops (o : String) (v : CondVal) (hop : plainOp (some o) v = true) :
    o = "!" ∨ o = ">" ∨ o = ">=" ∨ o = "<" ∨ o = "<=" ∨ o = "REGEXP" := by
  by_cases h1 : o = "!"
  · exact Or.inl h1
  · by_cases h3 : o = ">" ∨ o = ">=" ∨ o = "<" ∨ o = "<=" ∨ o = "REGEXP"
    · exact Or.inr h3
    · exfalso
      simp only [plainOp, if_neg h1, if_neg h3] at hop
      exact Bool.false_ne_true hop

theorem plainOp_ops7 (op : Option String) (v : CondVal) (hop : plainOp op v = true) :
    op = none ∨ op = some "!" ∨ op = some ">" ∨ op = some ">=" ∨
      op = some "<" ∨ op = some "<=" ∨ op = some "REGEXP" := by
  cases op with
  | none => exact Or.inl rfl
  | some o =>
    rcases plainOp_some_ops o v hop with h | h | h | h | h | h <;> subst h
    · exact Or.inr (Or.inl rfl)
    · exact Or.inr (Or.inr (Or.inl rfl))
    · exact Or.inr (Or.inr (Or.inr (Or.inl rfl)))
    · exact Or.inr (Or.inr (Or.inr (Or.inr (Or.inl rfl))))
    · exact Or.inr (Or.inr (Or.inr (Or.inr (Or.inr (Or.inl rfl)))))
    · exact Or.inr (Or.inr (Or.inr (Or.inr (Or.inr (Or.inr rfl)))))

/-- One plain (non-logical) entry of a `plainTree`: it compiles to a
single fragment, appends exactly one fresh binding per scalar leaf / list
element holding that untouched value, bumps the guid once, and the
fragment is unchanged when the entry's value is zero-masked (compiled
from any state with the same guid). -/
theorem condEntryPlain_plain (pfx key : String) (v : CondVal) (st ms : St)
    (hguid : ms.guid = st.guid)
    (hlog : logicalRel key = none)
    (hpe : plainEntry pfx key v = true)
    (hf : genFresh st.map st.guid = true)
    (hfm : genFresh ms.map ms.guid = true) :
    ∃ frag st1 ms1,
      condEntryPlain pfx key v st = .ok (some frag, st1) ∧
      (∃ d, st1.map = st.map ++ d ∧
        d.map (fun p => p.2) = (leavesE v).map BindVal.j) ∧
      st1.guid = st.guid + 1 ∧
      genFresh st1.map st1.guid = true ∧
      condEntryPlain pfx key (maskE v) ms = .ok (some frag, ms1) ∧
      ms1.guid = ms.guid + 1 ∧
      genFresh ms1.map ms1.guid = true := by
  have hng0 : (isIntKey key && (parseColCol (CondVal.num 0).toStr).isSome) = false :=
    guard_of_noBracket key (.num 0) (by decide)
  have honeR : ∀ b : BindVal, pmInsert st.map (PKey.gen st.guid .plain) b =
      st.map ++ [(PKey.gen st.guid .plain, b)] :=
    fun b => pmInsert_fresh _ _ _ (genFresh_notin st.map st.guid hf st.guid _ (le_refl _))
  have honeM : ∀ b : BindVal, pmInsert ms.map (PKey.gen st.guid .plain) b =
      ms.map ++ [(PKey.gen st.guid .plain, b)] :=
    fun b => pmInsert_fresh _ _ _ (genFresh_notin ms.map ms.guid hfm st.guid _ (le_of_eq hguid))
  cases v
  case sub t2 =>
    exfalso
    have hpe2 : ((logicalRel key).isSome && plainTree pfx t2) = true := hpe
    rw [hlog] at hpe2
    exact absurd hpe2 (by simp)
  case jnull =>
    simp only [plainEntry, hlog, Option.isNone_none, Bool.true_and, Bool.and_eq_true,
      Bool.not_eq_true'] at hpe
    obtain ⟨hguard', hrest⟩ := hpe
    cases hk : parseCondKey key with
    | none => simp only [hk, Bool.false_eq_true] at hrest
    | some km =>
      simp only [hk, Bool.and_eq_true] at hrest
      obtain ⟨col, op⟩ := km
      obtain ⟨hcol, hop⟩ := hrest
      have hop2 : plainOp op _ = true := hop
      obtain ⟨q, hq⟩ := resolveColumn_ok pfx ⟨col, op⟩ hcol
      rcases plainOp_ops7 op _ hop2 with h | h | h | h | h | h | h <;> subst h <;>
        (try simp [plainOp] at hop2
         all_goals
           exact plainBundle pfx key _ st ms _ [] [] hf hfm
             (by simp only [condEntryPlain, hguard', Bool.false_eq_true, if_false, hk, hq,
                   ok_bind, List.append_nil]
                 try rfl)
             (by simp [leavesE])
             (fun p hp2 => absurd hp2 (List.not_mem_nil p))
             (by simp only [maskE]
                 simp only [condEntryPlain, hguard', Bool.false_eq_true, if_false, hk, hq,
                   ok_bind, hguid, List.append_nil]
                 try rfl)
             (fun p hp2 => absurd hp2 (List.not_mem_nil p)))
  case list l =>
    simp only [plainEntry, hlog, Option.isNone_none, Bool.true_and, Bool.and_eq_true,
      Bool.not_eq_true'] at hpe
    obtain ⟨hguard', hrest⟩ := hpe
    cases hk : parseCondKey key with
    | none => simp only [hk, Bool.false_eq_true] at hrest
    | some km =>
      simp only [hk, Bool.and_eq_true] at hrest
      obtain ⟨col, op⟩ := km
      obtain ⟨hcol, hop⟩ := hrest
      have hop2 : plainOp op _ = true := hop
      obtain ⟨q, hq⟩ := resolveColumn_ok pfx ⟨col, op⟩ hcol
      have hfoldR : l.enum.foldl
          (fun m e => pmInsert m (PKey.gen st.guid (.inIdx e.1)) (.j e.2)) st.map =
          st.map ++ l.enum.map (fun e => (PKey.gen st.guid (.inIdx e.1), BindVal.j e.2)) := by
        have h9 := foldl_pmInsert_append
          (l.enum.map (fun e => (PKey.gen st.guid (.inIdx e.1), BindVal.j e.2))) st.map
          (fun p hp2 e he => by
            obtain ⟨x, hx, hxe⟩ := List.mem_map.mp hp2
            rw [← hxe]
            exact genFresh_notin st.map st.guid hf st.guid _ (le_refl _) e he)
          (enum_keys_pairwise st.guid l)
        rw [List.foldl_map] at h9
        exact h9
      have hfoldM : (l.map (fun _ => JVal.num 0)).enum.foldl
          (fun m e => pmInsert m (PKey.gen ms.guid (.inIdx e.1)) (.j e.2)) ms.map =
          ms.map ++ (l.map (fun _ => JVal.num 0)).enum.map
            (fun e => (PKey.gen ms.guid (.inIdx e.1), BindVal.j e.2)) := by
        have h9 := foldl_pmInsert_append
          ((l.map (fun _ => JVal.num 0)).enum.map
            (fun e => (PKey.gen ms.guid (.inIdx e.1), BindVal.j e.2))) ms.map
          (fun p hp2 e he => by
            obtain ⟨x, hx, hxe⟩ := List.mem_map.mp hp2
            rw [← hxe]
            exact genFresh_notin ms.map ms.guid hfm ms.guid _ (le_refl _) e he)
          (enum_keys_pairwise ms.guid _)
        rw [List.foldl_map] at h9
        exact h9
      have hng : (isIntKey key &&
          (parseColCol (CondVal.list (l.map (fun _ => JVal.num 0))).toStr).isSome) = false :=
        guard_of_noBracket key _ (maskedList_noBracket l)
      rcases plainOp_ops7 op _ hop2 with h | h | h | h | h | h | h <;> subst h <;>
        (try simp [plainOp] at hop2
         all_goals
           exact plainBundle pfx key _ st ms _
             (l.enum.map (fun e => (PKey.gen st.guid (.inIdx e.1), BindVal.j e.2)))
             ((l.map (fun _ => JVal.num 0)).enum.map
               (fun e => (PKey.gen ms.guid (.inIdx e.1), BindVal.j e.2)))
             hf hfm
             (by simp only [condEntryPlain, hguard', Bool.false_eq_true, if_false, hk, hq,
                   ok_bind]
                 rw [hfoldR]
                 try rfl)
             (by rw [enum_vals_j st.guid l]
                 simp [leavesE])
             (by intro p hp2
                 obtain ⟨x, hx, hxe⟩ := List.mem_map.mp hp2
                 rw [← hxe]
                 exact ⟨_, rfl⟩)
             (by simp only [maskE]
                 simp only [condEntryPlain, hng, Bool.false_eq_true, if_false, hk, hq,
                   ok_bind]
                 rw [hfoldM]
                 simp only [List.length_map, hguid]
                 try rfl)
             (by intro p hp2
                 obtain ⟨x, hx, hxe⟩ := List.mem_map.mp hp2
                 rw [← hxe]
                 exact ⟨_, rfl⟩))
  case undefined =>
    simp only [plainEntry, hlog, Option.isNone_none, Bool.true_and, Bool.and_eq_true,
      Bool.not_eq_true'] at hpe
    obtain ⟨hguard', hrest⟩ := hpe
    cases hk : parseCondKey key with
    | none => simp only [hk, Bool.false_eq_true] at hrest
    | some km =>
      simp only [hk, Bool.and_eq_true] at hrest
      obtain ⟨col, op⟩ := km
      obtain ⟨hcol, hop⟩ := hrest
      have hop2 : plainOp op _ = true := hop
      rcases plainOp_ops7 op _ hop2 with h | h | h | h | h | h | h <;> subst h <;>
        simp [plainOp] at hop2
  case raw r =>
    simp only [plainEntry, hlog, Option.isNone_none, Bool.true_and, Bool.and_eq_true,
      Bool.not_eq_true'] at hpe
    obtain ⟨hguard', hrest⟩ := hpe
    cases hk : parseCondKey key with
    | none => simp only [hk, Bool.false_eq_true] at hrest
    | some km =>
      simp only [hk, Bool.and_eq_true] at hrest
      obtain ⟨col, op⟩ := km
      obtain ⟨hcol, hop⟩ := hrest
      have hop2 : plainOp op _ = true := hop
      rcases plainOp_ops7 op _ hop2 with h | h | h | h | h | h | h <;> subst h <;>
        simp [plainOp] at hop2
  all_goals
    simp only [plainEntry, hlog, Option.isNone_none, Bool.true_and, Bool.and_eq_true,
      Bool.not_eq_true'] at hpe
    obtain ⟨hguard', hrest⟩ := hpe
    cases hk : parseCondKey key with
    | none => simp only [hk, Bool.false_eq_true] at hrest
    | some km =>
      simp only [hk, Bool.and_eq_true] at hrest
      obtain ⟨col, op⟩ := km
      obtain ⟨hcol, hop⟩ := hrest
      have hop2 : plainOp op _ = true := hop
      obtain ⟨q, hq⟩ := resolveColumn_ok pfx ⟨col, op⟩ hcol
      rcases plainOp_ops7 op _ hop2 with h | h | h | h | h | h | h <;> subst h <;>
        (try simp [plainOp] at hop2
         all_goals
           exact plainBundle pfx key _ st ms _ _ _ hf hfm
             (by simp only [condEntryPlain, hguard', Bool.false_eq_true, if_false, hk, hq,
                   ok_bind, bindSt, honeR]
                 try rfl)
             (by simp [leavesE, typeMapBind, toBindVal])
             (by intro p hp2
                 rw [List.mem_singleton.mp hp2]
                 exact ⟨_, rfl⟩)
             (by simp only [maskE]
                 simp only [condEntryPlain, hng0, Bool.false_eq_true, if_false, hk, hq,
                   ok_bind, bindSt, honeM, hguid]
                 try rfl)
             (by intro p hp2
                 rw [List.mem_singleton.mp hp2]
                 exact ⟨Suffix.plain, by rw [hguid]⟩))

/-- The entry loop on a `plainTree`: compiles to a fragment stack, the
map grows by exactly the leaf bindings in order, and the same stack is
produced on the zero-masked tree from any same-guid state. -/
theorem condGoT_plain (pfx : String) : ∀ n : Nat, ∀ t : CondTree, sizeT t ≤ n →
    ∀ st ms : St, ms.guid = st.guid →
    plainTree pfx t = true →
    genFresh st.map st.guid = true →
    genFresh ms.map ms.guid = true →
    ∃ frags st1 ms1 d,
      condGoT pfx t st = .ok (frags, st1) ∧
      st1.map = st.map ++ d ∧
      d.map (fun p => p.2) = (leavesT t).map BindVal.j ∧
      genFresh st1.map st1.guid = true ∧
      condGoT pfx (maskT t) ms = .ok (frags, ms1) ∧
      ms1.guid = st1.guid ∧
      genFresh ms1.map ms1.guid = true := by
  intro n
  induction n with
  | zero =>
    intro t hsz st ms hguid hp hf hfm
    cases t with
    | nil => exact ⟨[], st, ms, [], rfl, by simp, rfl, hf, rfl, hguid, hfm⟩
    | cons e rest =>
      exfalso
      obtain ⟨k2, v2⟩ := e
      have hsz2 : sizeV v2 + sizeT rest + 1 ≤ 0 := hsz
      omega
  | succ n ih =>
    intro t hsz st ms hguid hp hf hfm
    cases t with
    | nil => exact ⟨[], st, ms, [], rfl, by simp, rfl, hf, rfl, hguid, hfm⟩
    | cons e rest =>
      obtain ⟨key, v⟩ := e
      have hsz2 : sizeV v + sizeT rest + 1 ≤ n + 1 := hsz
      have hszrest : sizeT rest ≤ n := by omega
      have hp2 : (plainEntry pfx key v && plainTree pfx rest) = true := hp
      rw [Bool.and_eq_true] at hp2
      obtain ⟨hpe, hprest⟩ := hp2
      cases hlog : logicalRel key with
      | none =>
        obtain ⟨frag, st1, ms1, h1, ⟨d1, hd1m, hd1v⟩, h3, h4, h5, h6, h7⟩ :=
          condEntryPlain_plain pfx key v st ms hguid hlog hpe hf hfm
        obtain ⟨frags2, st2, ms2, d2, g1, g2, g3, g4, g5, g6, g7⟩ :=
          ih rest hszrest st1 ms1 (by rw [h6, h3, hguid]) hprest h4 h7
        refine ⟨frag :: frags2, st2, ms2, d1 ++ d2, ?_, ?_, ?_, g4, ?_, g6, g7⟩
        · simp only [condGoT, hlog, h1, g1]
          try rfl
        · rw [g2, hd1m, List.append_assoc]
        · simp only [List.map_append, hd1v, g3, leavesT]
        · simp only [maskT, condGoT, hlog, h5, g5]
          try rfl
      | some rel =>
        cases v
        case sub t2 =>
          have hszt : sizeT t2 ≤ n := by
            have : sizeV (CondVal.sub t2) = sizeT t2 + 1 := rfl
            omega
          have hpe2 : ((logicalRel key).isSome && plainTree pfx t2) = true := hpe
          rw [Bool.and_eq_true] at hpe2
          obtain ⟨frags1, st1, ms1, d1, h1, h2, h3, h4, h5, h6, h7⟩ :=
            ih t2 hszt st ms hguid hpe2.2 hf hfm
          obtain ⟨frags2, st2, ms2, d2, g1, g2, g3, g4, g5, g6, g7⟩ :=
            ih rest hszrest st1 ms1 h6 hprest h4 h7
          refine ⟨("(" ++ String.intercalate (" " ++ rel ++ " ") frags1 ++ ")") :: frags2,
            st2, ms2, d1 ++ d2, ?_, ?_, ?_, g4, ?_, g6, g7⟩
          · simp only [condGoT, hlog, CondVal.isObj, condGoLogical, h1, g1]
            try rfl
          · rw [g2, h2, List.append_assoc]
          · simp only [List.map_append, h3, g3, leavesT, leavesE]
          · simp only [maskT, maskE, condGoT, hlog, CondVal.isObj, condGoLogical, h5, g5]
            try rfl
        all_goals simp [plainEntry, hlog] at hpe

/-- C1 counterexample: a positional entry whose string value matches the
column-to-column pattern is spliced as quoted column names — the compile
succeeds with an *empty* parameter map although the tree has one scalar
leaf, and the leaf's content surfaces in the SQL text itself. -/
theorem colcolNoBinding_cex :
    dataImplode "" [("0", CondVal.str "a[>]b")] ⟨[], 0⟩ " AND" =
      .ok ("\"a\" > \"b\"", ⟨[], 1⟩) ∧
    (leavesT [("0", CondVal.str "a[>]b")]).length = 1 := ⟨rfl, rfl⟩

/-- C1 (amended): over the `plainTree` fragment (plain equality,
comparison, negation, IN-list and REGEXP entries with scalar or list
values — no column-to-column positionals, no `Raw`, no LIKE, no range,
no boolean under equality/negation), `dataImplode` succeeds, appends to
the parameter map exactly one binding per scalar leaf and per list
element holding exactly that value in entry order, and the generated SQL
text is unchanged when every leaf is replaced by `0` (so no leaf value
reaches the SQL text except through a generated parameter name). -/
theorem parameterisationPlain (pfx conj : String) (t : CondTree) (st : St)
    (hp : plainTree pfx t = true)
    (hf : genFresh st.map st.guid = true) :
    ∃ sql st1 ms1 d,
      dataImplode pfx t st conj = .ok (sql, st1) ∧
      st1.map = st.map ++ d ∧
      d.map (fun p => p.2) = (leavesT t).map BindVal.j ∧
      dataImplode pfx (maskT t) st conj = .ok (sql, ms1) ∧
      ms1.guid = st1.guid := by
  obtain ⟨frags, st1, ms1, d, h1, h2, h3, _, h5, h6, _⟩ :=
    condGoT_plain pfx (sizeT t) t (le_refl _) st st rfl hp hf hf
  refine ⟨String.intercalate (conj ++ " ") frags, st1, ms1, d, ?_, h2, h3, ?_, h6⟩
  · simp only [dataImplode, h1]
  · simp only [dataImplode, h5]

/-- C1 witness: the spec's own example `{age: 25, role: 'admin'}`. -/
theorem parameterisationPlain_witness :
    (∃ sql st1 ms1 d,
      dataImplode "" [("age", CondVal.num 25), ("role", CondVal.str "admin")]
          ⟨[], 0⟩ " AND" = .ok (sql, st1) ∧
      st1.map = (⟨[], 0⟩ : St).map ++ d ∧
      d.map (fun p => p.2) =
        (leavesT [("age", CondVal.num 25), ("role", CondVal.str "admin")]).map BindVal.j ∧
      dataImplode "" (maskT [("age", CondVal.num 25), ("role", CondVal.str "admin")])
          ⟨[], 0⟩ " AND" = .ok (sql, ms1) ∧
      ms1.guid = st1.guid) ∧
    dataImplode "" [("age", CondVal.num 25), ("role", CondVal.str "admin")]
        ⟨[], 0⟩ " AND" =
      .ok ("\"age\" = :medoo_0_param AND \"role\" = :medoo_1_param",
        ⟨[(.gen 0 .plain, .j (.num 25)), (.gen 1 .plain, .j (.str "admin"))], 2⟩) :=
  ⟨parameterisationPlain "" " AND"
    [("age", CondVal.num 25), ("role", CondVal.str "admin")] ⟨[], 0⟩ rfl rfl, rfl⟩

end Medoo
